import Mathlib

/-
Shallow embedding of the rust-calculator repository (src/big_num.rs,
src/frac.rs, src/common.rs, src/parser.rs, src/lib.rs).

Modelling conventions:
- Rust `Vec<u8>` digit vectors become `List Nat`; machine arithmetic on
  digits never overflows `u8` for decimal digits, so `Nat` is faithful.
- Panics (`panic!` in `Div for BigNum`, `Frac::new`, iterator `unwrap`s in
  the parser) are modelled explicitly: library-level fallible/panicking
  operations return `Except String`, and the evaluator pipeline returns
  `Out`, whose `panic` constructor marks a Rust panic.
- `while` loops are modelled with an explicit fuel argument large enough
  for the loop's termination measure; fuel exhaustion is distinguished
  from every other outcome and is proved unreachable where theorems need it.
-/

/-- Sign-magnitude big integer: `sign = true` means non-negative, `num`
stores decimal digits most-significant first (struct `BigNum`,
src/big_num.rs). -/
structure BigNum where
  sign : Bool
  num : List Nat
deriving DecidableEq, Repr

/-- All digits are zero (`BigNum::is_num_zero`). -/
def isNumZero (l : List Nat) : Bool := l.all (fun n => n == 0)

/-- Drop every leading zero digit (`BigNum::remove_leading_zeros`, a
`skip_while` over the digit vector). -/
def removeLeadingZeros (l : List Nat) : List Nat := l.dropWhile (fun n => n == 0)

/-- Canonical zero (`BigNum::new` / `BigNum::zero`): single digit 0,
positive sign. -/
def BigNum.zero : BigNum := ⟨true, [0]⟩

/-- `BigNum::from(num, sign)`: all-zero digits collapse to canonical zero,
otherwise leading zeros are stripped and the sign is kept. -/
def BigNum.fromVec (num : List Nat) (sign : Bool) : BigNum :=
  if isNumZero num then BigNum.zero else ⟨sign, removeLeadingZeros num⟩

/-- `BigNum::abs`: same digits, positive sign. -/
def BigNum.abs (a : BigNum) : BigNum := ⟨true, a.num⟩

/-- `BigNum::is_zero`. -/
def BigNum.isZero (a : BigNum) : Bool := isNumZero a.num

/-- `BigNum::is_negative`. -/
def BigNum.isNegative (a : BigNum) : Bool := a.sign == false

/-- `BigNum::negate`: flips the sign bit, digits unchanged. -/
def BigNum.negate (a : BigNum) : BigNum := ⟨!a.sign, a.num⟩

/-- `BigNum::one()`. -/
def BigNum.one : BigNum := BigNum.fromVec [1] true

/-- Pad a digit vector on the left with zeros up to length `n` (the
`insert(0, 0)` loops at the top of `Add for BigNum`). -/
def padTo (n : Nat) (l : List Nat) : List Nat := List.replicate (n - l.length) 0 ++ l

/-- Strip leading zeros but keep at least one digit (the
`while result.len() > 1 && result[0] == 0 { result.remove(0); }` loops). -/
def trim : List Nat → List Nat
  | [] => []
  | d :: ds => if d = 0 ∧ ds ≠ [] then trim ds else d :: ds

/-- Digit-wise addition with carry, processing equal-length vectors; the
carry flows from the least-significant (last) digit leftwards, exactly as
the index loop `for i in (0..max_len).rev()` in `Add for BigNum`.  Returns
(carry out, digit vector). -/
def addAux : List Nat → List Nat → Nat × List Nat
  | d1 :: t1, d2 :: t2 =>
    let p := addAux t1 t2
    let s := d1 + d2 + p.1
    (s / 10, s % 10 :: p.2)
  | _, _ => (0, [])

/-- Digit-wise subtraction with borrow (the differing-sign branch of
`Add for BigNum`): `diff = larger[i] - smaller[i] - borrow`, adding 10 and
setting the borrow when negative.  Returns (borrow out, digit vector). -/
def subAux : List Nat → List Nat → Nat × List Nat
  | d1 :: t1, d2 :: t2 =>
    let p := subAux t1 t2
    let d : Int := (d1 : Int) - (d2 : Int) - (p.1 : Int)
    if d < 0 then (1, (d + 10).toNat :: p.2) else (0, d.toNat :: p.2)
  | _, _ => (0, [])

/-- Lexicographic `<` on digit vectors (Rust's derived `Vec<u8>` ordering,
used as `num1 > num2` inside `Add for BigNum`). -/
def listLt : List Nat → List Nat → Bool
  | [], [] => false
  | [], _ :: _ => true
  | _ :: _, [] => false
  | d1 :: t1, d2 :: t2 =>
    if d1 < d2 then true else if d2 < d1 then false else listLt t1 t2

/-- `Add for BigNum`: pad both operands to equal length; same signs add
with carry and keep the sign, differing signs subtract the smaller
magnitude (by lexicographic comparison of the padded vectors) from the
larger and take the sign of the operand with the larger vector; both
branches strip leading zeros down to one digit. -/
def BigNum.add (a b : BigNum) : BigNum :=
  let maxLen := max a.num.length b.num.length
  let n1 := padTo maxLen a.num
  let n2 := padTo maxLen b.num
  if a.sign = b.sign then
    let p := addAux n1 n2
    ⟨a.sign, trim (p.1 :: p.2)⟩
  else if listLt n2 n1 then
    ⟨a.sign, trim (subAux n1 n2).2⟩
  else
    ⟨b.sign, trim (subAux n2 n1).2⟩

/-- `Sub for BigNum`: `self + (-other)`. -/
def BigNum.sub (a b : BigNum) : BigNum := a.add b.negate

/-- One row of schoolbook multiplication (the inner loop of
`Mul for BigNum`): multiply every digit of the vector by `n`, carry flowing
from the least-significant digit.  Returns (carry out, digit vector). -/
def mulAux (n : Nat) : List Nat → Nat × List Nat
  | d :: t =>
    let p := mulAux n t
    let m := n * d + p.1
    (m / 10, m % 10 :: p.2)
  | [] => (0, [])

/-- The outer loop of `Mul for BigNum`: walk the second operand's digits
least-significant first (index `i`), shift each partial product by `i`
zeros, and accumulate with `+=` on a running `BigNum` total. -/
def BigNum.mulLoop (aD : List Nat) : List Nat → Nat → BigNum → BigNum
  | [], _, acc => acc
  | n :: rest, i, acc =>
    let p := mulAux n aD
    let temp := (if p.1 > 0 then [p.1] else []) ++ p.2 ++ List.replicate i 0
    BigNum.mulLoop aD rest (i + 1) (acc.add (BigNum.fromVec temp true))

/-- `Mul for BigNum`: magnitude product via `mulLoop`, negated when the
operand signs differ. -/
def BigNum.mul (a b : BigNum) : BigNum :=
  let r := BigNum.mulLoop a.num b.num.reverse 0 BigNum.zero
  if a.sign ≠ b.sign then r.negate else r

/-- The digit-by-digit comparison tail of `PartialOrd for BigNum`
(equal-length vectors, result flipped for negative numbers). -/
def cmpDigits : List Nat → List Nat → Bool → Ordering
  | n1 :: t1, n2 :: t2, s =>
    if n2 < n1 then (if s then .gt else .lt)
    else if n1 < n2 then (if s then .lt else .gt)
    else cmpDigits t1 t2 s
  | _, _, _ => .eq

/-- `PartialOrd for BigNum`: sign first, then vector length (longer means
larger magnitude), then digit-by-digit. -/
def cmpB (a b : BigNum) : Ordering :=
  if a.sign ∧ ¬b.sign then .gt
  else if ¬a.sign ∧ b.sign then .lt
  else if b.num.length < a.num.length then (if a.sign then .gt else .lt)
  else if a.num.length < b.num.length then (if a.sign then .lt else .gt)
  else cmpDigits a.num b.num a.sign

/-- Decimal value of a digit vector, most-significant first. -/
def valNat (l : List Nat) : Nat := l.foldl (fun a d => 10 * a + d) 0

/-- The repeated-subtraction inner `while &remainder >= &other` loop of
`Div for BigNum`, counting how often the divisor fits.  `fuel` bounds the
iteration count; the callers pass `valNat remainder.num + 1`, which is
proved sufficient for well-formed operands. -/
def divInner (oth : BigNum) : Nat → BigNum → BigNum → BigNum × BigNum
  | 0, rem, cnt => (rem, cnt)
  | fuel + 1, rem, cnt =>
    if cmpB rem oth ≠ Ordering.lt then
      divInner oth fuel (rem.sub oth) (cnt.add (BigNum.fromVec [1] true))
    else (rem, cnt)

/-- The per-digit loop of `Div for BigNum`: shift the running remainder by
one decimal digit (note the source writes the shift as
`remainder * BigNum::from(vec![10], true)`, a single cell holding 10),
bring down the next dividend digit, count subtractions, and append the
count to the quotient. -/
def divFold (oth : BigNum) : List Nat → BigNum → BigNum → BigNum × BigNum
  | [], rem, res => (rem, res)
  | n :: rest, rem, res =>
    let rem1 := (rem.mul (BigNum.fromVec [10] true)).add (BigNum.fromVec [n] true)
    let p := divInner oth (valNat rem1.num + 1) rem1 BigNum.zero
    divFold oth rest p.1 ((res.mul (BigNum.fromVec [10] true)).add p.2)

/-- `Div for BigNum` after its division-by-zero panic guard: long division
on absolute values, the quotient sign negative exactly when the operand
signs differ and the quotient is nonzero. -/
def BigNum.divCore (a b : BigNum) : BigNum :=
  if a.isZero then BigNum.zero
  else
    let res := (divFold b.abs a.abs.num BigNum.zero BigNum.zero).2
    if a.sign ≠ b.sign ∧ ¬res.isZero then ⟨false, res.num⟩ else ⟨true, res.num⟩

/-- `Rem for BigNum` after the (inherited) division-by-zero guard:
`self - (self / other) * other`, the sign then forced to the dividend's. -/
def BigNum.remCore (a b : BigNum) : BigNum :=
  ⟨a.sign, (a.sub ((a.divCore b).mul b)).num⟩

/-- `Div for BigNum` including the `panic!("Division by zero")` guard,
the panic modelled as an `error` value. -/
def BigNum.div? (a b : BigNum) : Except String BigNum :=
  if b.isZero then .error "Division by zero" else .ok (a.divCore b)

/-- `Rem for BigNum`; the division inside panics on a zero divisor. -/
def BigNum.rem? (a b : BigNum) : Except String BigNum :=
  if b.isZero then .error "Division by zero" else .ok (a.remCore b)

/-- The Euclidean `while !b.is_zero()` loop of `BigNum::gcd`; `fuel`
bounds the iteration count and is proved sufficient for well-formed
operands. -/
def gcdLoop : Nat → BigNum → BigNum → BigNum
  | 0, a, _ => a
  | fuel + 1, a, b => if b.isZero then a else gcdLoop fuel b (a.remCore b)

/-- `BigNum::gcd`: errors when both operands are zero, returns the other
operand's absolute value when one is zero, otherwise runs Euclid on the
absolute values. -/
def BigNum.gcd (a b : BigNum) : Except String BigNum :=
  if a.isZero ∧ b.isZero then .error "GCD of 2 zeroes is undefined"
  else if a.isZero then .ok b.abs
  else if b.isZero then .ok a.abs
  else .ok (gcdLoop (valNat a.num + valNat b.num + 2) a.abs b.abs)

/-- Numerator/denominator pair of `BigNum` (struct `Frac`, src/frac.rs). -/
structure Frac where
  numerator : BigNum
  denominator : BigNum
deriving DecidableEq, Repr

/-- `Frac::simplify`: divide numerator and denominator by their GCD, then
negate both if the resulting denominator is negative.  The source uses the
`Result` returned by `BigNum::gcd` directly as a `BigNum`; that is
modelled by propagating the (unreachable for a nonzero denominator) error,
and the `/` panics are the `error`s of `BigNum.div?`. -/
def Frac.simplify? (f : Frac) : Except String Frac := do
  let gcd ← f.numerator.gcd f.denominator
  let numerator ← f.numerator.div? gcd
  let denominator ← f.denominator.div? gcd
  if denominator.isNegative then
    .ok ⟨numerator.negate, denominator.negate⟩
  else
    .ok ⟨numerator, denominator⟩

/-- `Frac::new`: `panic!("Denominator cannot be zero")` guard (modelled as
an `error`), then `simplify`. -/
def Frac.new? (numerator denominator : BigNum) : Except String Frac :=
  if denominator.isZero then .error "Denominator cannot be zero"
  else Frac.simplify? ⟨numerator, denominator⟩

/-- `Frac::inverse`: swap numerator and denominator through the
constructor (panics when the numerator was zero). -/
def Frac.finverse? (f : Frac) : Except String Frac :=
  Frac.new? f.denominator f.numerator

/-- `Frac::is_bignum`: denominator equals literal one, or numerator is
zero. -/
def Frac.isBignum (f : Frac) : Bool :=
  f.denominator == (⟨true, [1]⟩ : BigNum) || f.numerator.isZero

/-- `Frac::to_bignum`. -/
def Frac.toBignum (f : Frac) : Except String BigNum :=
  if f.isBignum then .ok f.numerator
  else .error "Fraction cannot be converted to BigNum"

/-- `Frac::is_simplified`: the source compares the `Result` of `gcd`
against the `BigNum` one; modelled as comparing the successful value. -/
def Frac.isSimplified (f : Frac) : Bool :=
  match f.numerator.gcd f.denominator with
  | .ok g => g == (⟨true, [1]⟩ : BigNum)
  | .error _ => false

/-- `IntoFrac for BigNum`: `Frac::new(self, BigNum::one())`. -/
def BigNum.toFrac? (b : BigNum) : Except String Frac :=
  Frac.new? b BigNum.one

/-- `Add for Frac`: `(ad + bc) / bd` through the constructor. -/
def Frac.fadd? (a b : Frac) : Except String Frac :=
  Frac.new? ((a.numerator.mul b.denominator).add (a.denominator.mul b.numerator))
    (a.denominator.mul b.denominator)

/-- `Add<BigNum> for Frac`: promote and add. -/
def Frac.faddB? (a : Frac) (n : BigNum) : Except String Frac := do
  a.fadd? (← n.toFrac?)

/-- `Neg for Frac`: negate the numerator through the constructor. -/
def Frac.fneg? (a : Frac) : Except String Frac :=
  Frac.new? a.numerator.negate a.denominator

/-- `Sub for Frac`: `self + (-other)`. -/
def Frac.fsub? (a b : Frac) : Except String Frac := do
  a.fadd? (← b.fneg?)

/-- `Sub<BigNum> for Frac`: promote and subtract. -/
def Frac.fsubB? (a : Frac) (n : BigNum) : Except String Frac := do
  a.fsub? (← n.toFrac?)

/-- `Mul for Frac`: `ac / bd` through the constructor. -/
def Frac.fmul? (a b : Frac) : Except String Frac :=
  Frac.new? (a.numerator.mul b.numerator) (a.denominator.mul b.denominator)

/-- `Mul<BigNum> for Frac`. -/
def Frac.fmulB? (a : Frac) (n : BigNum) : Except String Frac := do
  a.fmul? (← n.toFrac?)

/-- `Div for Frac`: multiply by the inverse (which panics when the right
operand's numerator is zero). -/
def Frac.fdiv? (a b : Frac) : Except String Frac := do
  a.fmul? (← b.finverse?)

/-- `Div<BigNum> for Frac`: promote and divide. -/
def Frac.fdivB? (a : Frac) (n : BigNum) : Except String Frac := do
  a.fdiv? (← n.toFrac?)

/-- Tagged union over integers and fractions (enum `Value`,
src/common.rs). -/
inductive Value where
  | Number (n : BigNum)
  | Frac (f : Frac)
deriving DecidableEq, Repr

/-- `Value::simplify`: collapse a fraction that converts exactly to a
`BigNum` into the `Number` variant. -/
def Value.simplify : Value → Value
  | .Number n => .Number n
  | .Frac f =>
    match f.toBignum with
    | .ok n => .Number n
    | .error _ => .Frac f

/-- Modelled from the spec: `Frac::is_zero` is called from
`Value::is_zero` (src/common.rs) but its definition is absent from the
sources; per the spec's data model (a zero numerator normalizes to `0/1`)
a fraction is zero exactly when its numerator is zero. -/
def Frac.isZeroF (f : Frac) : Bool := f.numerator.isZero

/-- `Value::is_zero`. -/
def Value.isZero : Value → Bool
  | .Number n => n.isZero
  | .Frac f => f.isZeroF

/-- `Neg for Value` (no `simplify` call in the source). -/
def Value.vneg? : Value → Except String Value
  | .Number n => .ok (.Number n.negate)
  | .Frac f => do .ok (.Frac (← f.fneg?))

/-- `Add for Value`: dispatch on the variants, then `simplify`. -/
def Value.vadd? : Value → Value → Except String Value
  | .Number l, .Number r => .ok (Value.simplify (.Number (l.add r)))
  | .Frac l, .Frac r => do .ok (Value.simplify (.Frac (← l.fadd? r)))
  | .Number n, .Frac f => do .ok (Value.simplify (.Frac (← f.faddB? n)))
  | .Frac f, .Number n => do .ok (Value.simplify (.Frac (← f.faddB? n)))

/-- `Sub for Value`: dispatch, then `simplify`.  Note the source's
`(Number, Frac)` arm computes `frac - num`, not `num - frac`. -/
def Value.vsub? : Value → Value → Except String Value
  | .Number l, .Number r => .ok (Value.simplify (.Number (l.sub r)))
  | .Frac l, .Frac r => do .ok (Value.simplify (.Frac (← l.fsub? r)))
  | .Number n, .Frac f => do .ok (Value.simplify (.Frac (← f.fsubB? n)))
  | .Frac f, .Number n => do .ok (Value.simplify (.Frac (← f.fsubB? n)))

/-- `Mul for Value`: dispatch, then `simplify`. -/
def Value.vmul? : Value → Value → Except String Value
  | .Number l, .Number r => .ok (Value.simplify (.Number (l.mul r)))
  | .Frac l, .Frac r => do .ok (Value.simplify (.Frac (← l.fmul? r)))
  | .Number n, .Frac f => do .ok (Value.simplify (.Frac (← f.fmulB? n)))
  | .Frac f, .Number n => do .ok (Value.simplify (.Frac (← f.fmulB? n)))

/-- `Div for Value`: two integers form a fraction unless the remainder is
(structurally) zero; dispatch otherwise, then `simplify`.  Note the
source's `(Number, Frac)` arm computes `frac / num`, not `num / frac`. -/
def Value.vdiv? : Value → Value → Except String Value
  | .Number l, .Number r => do
    let m ← l.rem? r
    if m = BigNum.zero then do
      let q ← l.div? r
      .ok (Value.simplify (.Number q))
    else do
      let f ← Frac.new? l r
      .ok (Value.simplify (.Frac f))
  | .Frac l, .Frac r => do .ok (Value.simplify (.Frac (← l.fdiv? r)))
  | .Number n, .Frac f => do .ok (Value.simplify (.Frac (← f.fdivB? n)))
  | .Frac f, .Number n => do .ok (Value.simplify (.Frac (← f.fdivB? n)))

/-- Rust `to_digit(10)` on an ASCII digit. -/
def digitVal (c : Char) : Nat := c.toNat - '0'.toNat

/-- The sign-handling prefix of `FromStr for BigNum`: strip one leading
`-` (negative) or `+` (positive); anything else leaves a positive sign and
the input untouched. -/
def stripSign : List Char → Bool × List Char
  | '-' :: r => (false, r)
  | '+' :: r => (true, r)
  | r => (true, r)

/-- `FromStr for BigNum`: optional sign, then every remaining character
must be a decimal digit (first offender reported), then a nonempty check;
the digits are stored exactly as written, with no normalization. -/
def BigNum.fromStr (s : List Char) : Except String BigNum :=
  let p : Bool × List Char := stripSign s
  match p.2.mapM (fun c =>
      if c.isDigit then Except.ok (digitVal c)
      else Except.error ("Invalid character: " ++ toString c)) with
  | .error e => .error e
  | .ok digits =>
    if digits.isEmpty then .error "Invalid number format"
    else .ok ⟨p.1, digits⟩

/-- Rust `str::split('/')` (keeps empty parts, `n` separators give `n + 1`
parts). -/
def splitSlash : List Char → List (List Char)
  | [] => [[]]
  | c :: r =>
    if c = '/' then [] :: splitSlash r
    else
      match splitSlash r with
      | p :: ps => (c :: p) :: ps
      | [] => [[c]]

/-- `FromStr for Frac`: exactly two `/`-separated parts, both parsed as
`BigNum`, denominator checked nonzero, then `Frac::new`. -/
def Frac.fromStr (s : List Char) : Except String Frac :=
  match splitSlash s with
  | [p1, p2] =>
    match BigNum.fromStr p1 with
    | .error e => .error e
    | .ok numerator =>
      match BigNum.fromStr p2 with
      | .error e => .error e
      | .ok denominator =>
        if denominator.isZero then .error "Denominator cannot be zero"
        else Frac.new? numerator denominator
  | _ => .error "Invalid fraction format. Expected format: numerator/denominator"

/-- `FromStr for Value`: try `BigNum` then `Frac`, simplifying either
result; the error type is `()` in the source, so failures carry no
message. -/
def Value.fromStr? (s : List Char) : Option Value :=
  match BigNum.fromStr s with
  | .ok n => some (Value.simplify (.Number n))
  | .error _ =>
    match Frac.fromStr s with
    | .ok f => some (Value.simplify (.Frac f))
    | .error _ => none

/-- Digit vector rendered as decimal text (`Display for BigNum` body). -/
def digitsStr (l : List Nat) : String := l.foldl (fun s d => s ++ toString d) ""

/-- `Display for BigNum`: minus sign only for negative nonzero values. -/
def BigNum.toStr (b : BigNum) : String :=
  (if !b.sign && !b.isZero then "-" else "") ++ digitsStr b.num

/-- `Display for Frac`: `numerator/denominator`. -/
def Frac.toStr (f : Frac) : String :=
  f.numerator.toStr ++ "/" ++ f.denominator.toStr

/-- `Display for Value`. -/
def Value.toStr : Value → String
  | .Number n => n.toStr
  | .Frac f => f.toStr

/-- Lexer tokens (enum `Token`, src/parser.rs).  Note the source's `lex`
maps `'('` to `RightParen` and `')'` to `LeftParen`; the parser uses them
consistently with that swapped naming. -/
inductive Token where
  | Plus
  | Dash
  | Star
  | Slash
  | RightParen
  | LeftParen
  | End
  | Number (v : Value)
deriving DecidableEq, Repr

/-- `PartialEq for Frac`: cross-multiplication conjoined with both sides
being simplified. -/
def fracEq (a b : Frac) : Bool :=
  decide (a.numerator.mul b.denominator = a.denominator.mul b.numerator)
    && a.isSimplified && b.isSimplified

/-- Derived `PartialEq for Value`: same variant, payloads equal
(`BigNum` equality is structural, `Frac` equality is `fracEq`). -/
def valueEq : Value → Value → Bool
  | .Number a, .Number b => a == b
  | .Frac a, .Frac b => fracEq a b
  | _, _ => false

/-- Derived `PartialEq for Token`. -/
def tokenEq : Token → Token → Bool
  | .Plus, .Plus => true
  | .Dash, .Dash => true
  | .Star, .Star => true
  | .Slash, .Slash => true
  | .RightParen, .RightParen => true
  | .LeftParen, .LeftParen => true
  | .End, .End => true
  | .Number a, .Number b => valueEq a b
  | _, _ => false

/-- `SyntaxError` (src/parser.rs): message plus a `Lex`/`Parse` level. -/
structure SyntaxError where
  message : String
  level : String
deriving DecidableEq, Repr

/-- Outcome of a pipeline stage: a value, a returned `SyntaxError`, or a
Rust panic (also used for fuel exhaustion of the loop models, which is
proved or computed away everywhere it matters). -/
inductive Out (α : Type) where
  | ok (a : α)
  | err (e : SyntaxError)
  | panic (msg : String)
deriving DecidableEq, Repr

/-- Map the panic-style errors of the value layer into `Out`. -/
def liftP : Except String α → Out α
  | .ok a => .ok a
  | .error m => .panic m

/-- The `lex` loop (src/parser.rs): spaces skipped, six single-character
tokens, a maximal ASCII-digit run parsed (and `unwrap`ped) into a
`Number`, any other character a `Lex` error naming it.  The source's
`take_while`/`leftover` mechanism consumes the first non-digit and replays
it on the next iteration, which is exactly `takeWhile`/`dropWhile`. -/
def lexLoop : Nat → List Char → List Token → Out (List Token)
  | 0, _, _ => .panic "out of fuel"
  | fuel + 1, cs, acc =>
    match cs with
    | [] => .ok (acc ++ [Token.End])
    | c :: rest =>
      if c = ' ' then lexLoop fuel rest acc
      else if c = '+' then lexLoop fuel rest (acc ++ [Token.Plus])
      else if c = '*' then lexLoop fuel rest (acc ++ [Token.Star])
      else if c = '/' then lexLoop fuel rest (acc ++ [Token.Slash])
      else if c = ')' then lexLoop fuel rest (acc ++ [Token.LeftParen])
      else if c = '(' then lexLoop fuel rest (acc ++ [Token.RightParen])
      else if c = '-' then lexLoop fuel rest (acc ++ [Token.Dash])
      else if c.isDigit then
        match Value.fromStr? (c :: rest.takeWhile Char.isDigit) with
        | some v => lexLoop fuel (rest.dropWhile Char.isDigit) (acc ++ [Token.Number v])
        | none => .panic "unwrap of number parse"
      else .err ⟨"Unrecognized character " ++ toString c, "Lex"⟩

/-- `lex`: run the loop (every iteration consumes at least one character,
so `length + 1` fuel always suffices) and append the `End` terminator. -/
def lex (cs : List Char) : Out (List Token) := lexLoop (cs.length + 1) cs []

/-- Binary operators (enum `Operator`, src/parser.rs). -/
inductive Operator where
  | Add
  | Multiply
  | Divide
  | Subtract
  | Negative
deriving DecidableEq, Repr

/-- AST (enum `Expr`, src/parser.rs; the source spells the value node
`ValExrp`). -/
inductive Expr where
  | BinExpr (op : Operator) (l r : Expr)
  | UnaryExpr (op : Operator) (e : Expr)
  | ValExrp (v : Value)
deriving DecidableEq, Repr

/-- `Expr::eval`: values return themselves, negation and the four binary
operators dispatch into `Value` arithmetic; division evaluates the right
operand first and turns a zero value into a `Parse`-level
"Division by Zero" error before touching the left operand.  The source's
catch-all arm formats the expression into its message; the formatting is
elided here. -/
def Expr.eval : Expr → Out Value
  | .ValExrp v => .ok v
  | .UnaryExpr .Negative e =>
    match e.eval with
    | .ok v => liftP v.vneg?
    | .err er => .err er
    | .panic m => .panic m
  | .BinExpr .Add l r =>
    match l.eval with
    | .ok lv =>
      match r.eval with
      | .ok rv => liftP (lv.vadd? rv)
      | .err er => .err er
      | .panic m => .panic m
    | .err er => .err er
    | .panic m => .panic m
  | .BinExpr .Subtract l r =>
    match l.eval with
    | .ok lv =>
      match r.eval with
      | .ok rv => liftP (lv.vsub? rv)
      | .err er => .err er
      | .panic m => .panic m
    | .err er => .err er
    | .panic m => .panic m
  | .BinExpr .Multiply l r =>
    match l.eval with
    | .ok lv =>
      match r.eval with
      | .ok rv => liftP (lv.vmul? rv)
      | .err er => .err er
      | .panic m => .panic m
    | .err er => .err er
    | .panic m => .panic m
  | .BinExpr .Divide l r =>
    match r.eval with
    | .ok rv =>
      if rv.isZero then .err ⟨"Division by Zero", "Parse"⟩
      else
        match l.eval with
        | .ok lv => liftP (lv.vdiv? rv)
        | .err er => .err er
        | .panic m => .panic m
    | .err er => .err er
    | .panic m => .panic m
  | _ => .err ⟨"Unreachable code", "Parse"⟩

/-- `Parser::assert_next`: take the next token, `Parse` errors for
exhaustion or mismatch (the source formats both tokens into the mismatch
message; the formatting is elided here).  Returns the advanced position. -/
def assertNext (toks : List Token) (i : Nat) (t : Token) : Out Nat :=
  match toks.get? i with
  | none => .err ⟨"Unexpected end of input", "Parse"⟩
  | some t2 =>
    if tokenEq t2 t then .ok (i + 1)
    else .err ⟨"Expected token mismatch", "Parse"⟩

mutual

/-- `Parser::primary`: `next().unwrap()` (panic when the iterator is
exhausted), then a number, a parenthesized expression (remember `'('`
lexes as `RightParen`), or unary minus; anything else is a `Parse` error
(the source formats the token into the message; elided here). -/
def primary : Nat → List Token → Nat → Out (Expr × Nat)
  | 0, _, _ => .panic "out of fuel"
  | fuel + 1, toks, i =>
    match toks.get? i with
    | none => .panic "unwrap of exhausted token iterator"
    | some (Token.Number v) => .ok (Expr.ValExrp v, i + 1)
    | some Token.RightParen =>
      match expression fuel toks (i + 1) with
      | .ok (e, j) =>
        match assertNext toks j Token.LeftParen with
        | .ok k => .ok (e, k)
        | .err er => .err er
        | .panic m => .panic m
      | .err er => .err er
      | .panic m => .panic m
    | some Token.Dash =>
      match factor fuel toks (i + 1) with
      | .ok (e, j) => .ok (Expr.UnaryExpr Operator.Negative e, j)
      | .err er => .err er
      | .panic m => .panic m
    | some _ => .err ⟨"Unexpected token", "Parse"⟩
termination_by structural fuel _ _ => fuel

/-- `Parser::factor`: delegates to `primary`. -/
def factor : Nat → List Token → Nat → Out (Expr × Nat)
  | 0, _, _ => .panic "out of fuel"
  | fuel + 1, toks, i => primary fuel toks i
termination_by structural fuel _ _ => fuel

/-- `Parser::term`: a factor followed by the `*`/`/` loop. -/
def term : Nat → List Token → Nat → Out (Expr × Nat)
  | 0, _, _ => .panic "out of fuel"
  | fuel + 1, toks, i =>
    match factor fuel toks i with
    | .ok (e, j) => termLoop fuel toks j e
    | .err er => .err er
    | .panic m => .panic m
termination_by structural fuel _ _ => fuel

/-- The `loop` in `Parser::term`: `peek().unwrap()` (panic when
exhausted), consume `*` or `/` and a right factor, anything else ends the
loop. -/
def termLoop : Nat → List Token → Nat → Expr → Out (Expr × Nat)
  | 0, _, _, _ => .panic "out of fuel"
  | fuel + 1, toks, i, acc =>
    match toks.get? i with
    | none => .panic "unwrap of exhausted token iterator"
    | some Token.Star =>
      match factor fuel toks (i + 1) with
      | .ok (rhs, j) => termLoop fuel toks j (Expr.BinExpr Operator.Multiply acc rhs)
      | .err er => .err er
      | .panic m => .panic m
    | some Token.Slash =>
      match factor fuel toks (i + 1) with
      | .ok (rhs, j) => termLoop fuel toks j (Expr.BinExpr Operator.Divide acc rhs)
      | .err er => .err er
      | .panic m => .panic m
    | some _ => .ok (acc, i)
termination_by structural fuel _ _ _ => fuel

/-- `Parser::expression`: a term followed by the `+`/`-` loop. -/
def expression : Nat → List Token → Nat → Out (Expr × Nat)
  | 0, _, _ => .panic "out of fuel"
  | fuel + 1, toks, i =>
    match term fuel toks i with
    | .ok (e, j) => exprLoop fuel toks j e
    | .err er => .err er
    | .panic m => .panic m
termination_by structural fuel _ _ => fuel

/-- The `loop` in `Parser::expression`: `peek().unwrap()`, consume `+` or
`-` and a right term, anything else ends the loop. -/
def exprLoop : Nat → List Token → Nat → Expr → Out (Expr × Nat)
  | 0, _, _, _ => .panic "out of fuel"
  | fuel + 1, toks, i, acc =>
    match toks.get? i with
    | none => .panic "unwrap of exhausted token iterator"
    | some Token.Plus =>
      match term fuel toks (i + 1) with
      | .ok (rhs, j) => exprLoop fuel toks j (Expr.BinExpr Operator.Add acc rhs)
      | .err er => .err er
      | .panic m => .panic m
    | some Token.Dash =>
      match term fuel toks (i + 1) with
      | .ok (rhs, j) => exprLoop fuel toks j (Expr.BinExpr Operator.Subtract acc rhs)
      | .err er => .err er
      | .panic m => .panic m
    | some _ => .ok (acc, i)
termination_by structural fuel _ _ _ => fuel

end

/-- `Parser::parse`: an expression, then `assert_next(End)`.  Every parser
call consumes fuel and the recursion depth is linear in the token count,
so the fuel passed here covers every input. -/
def parseToks (toks : List Token) : Out Expr :=
  match expression (4 * toks.length + 8) toks 0 with
  | .ok (e, i) =>
    match assertNext toks i Token.End with
    | .ok _ => .ok e
    | .err er => .err er
    | .panic m => .panic m
  | .err er => .err er
  | .panic m => .panic m

/-- `eval_to_string` (src/parser.rs, re-exported by src/lib.rs): lex,
parse, evaluate, display. -/
def evalToString (input : String) : Out String :=
  match lex input.toList with
  | .ok toks =>
    match parseToks toks with
    | .ok e =>
      match e.eval with
      | .ok v => .ok v.toStr
      | .err er => .err er
      | .panic m => .panic m
    | .err er => .err er
    | .panic m => .panic m
  | .err er => .err er
  | .panic m => .panic m

/-! ### Well-formedness predicates and integer semantics -/

/-- Every digit is a decimal digit. -/
def dval (l : List Nat) : Prop := ∀ d ∈ l, d < 10

instance (l : List Nat) : Decidable (dval l) := List.decidableBAll _ l

/-- No leading zero digit (vacuous for vectors of length at most one). -/
def noLead (l : List Nat) : Prop := 2 ≤ l.length → l.headI ≠ 0

instance (l : List Nat) : Decidable (noLead l) := by
  unfold noLead
  infer_instance

/-- Digits plus nonemptiness (enough for the digit-level arithmetic to be
meaningful). -/
def BigNum.wfd (b : BigNum) : Prop := b.num ≠ [] ∧ dval b.num

/-- Fully well-formed digit vector: nonempty decimal digits with no
leading zero. -/
def BigNum.wfB (b : BigNum) : Prop := b.num ≠ [] ∧ dval b.num ∧ noLead b.num

/-- The spec's BigInt data invariant: no leading zero digits, and the only
zero is the canonical single digit 0 with positive sign. -/
def BigNum.invariant (b : BigNum) : Prop :=
  b.num ≠ [] ∧ noLead b.num ∧ (b.isZero = true → b.sign = true)

/-- Canonical value: well-formed digits and the spec invariant. -/
def BigNum.canon (b : BigNum) : Prop := b.wfB ∧ (b.isZero = true → b.sign = true)

instance (b : BigNum) : Decidable b.wfd := by unfold BigNum.wfd; infer_instance

instance (b : BigNum) : Decidable b.wfB := by unfold BigNum.wfB; infer_instance

instance (b : BigNum) : Decidable b.invariant := by
  unfold BigNum.invariant
  infer_instance

instance (b : BigNum) : Decidable b.canon := by unfold BigNum.canon; infer_instance

/-- Signed integer denoted by a `BigNum`. -/
def BigNum.toZ (b : BigNum) : ℤ :=
  if b.sign then (valNat b.num : ℤ) else -(valNat b.num : ℤ)

/-! ### Digit-vector value lemmas -/

theorem valNat_foldl (l : List Nat) (a : Nat) :
    l.foldl (fun x d => 10 * x + d) a = a * 10 ^ l.length + valNat l := by
  induction l generalizing a with
  | nil => simp [valNat]
  | cons d t ih =>
    simp only [List.foldl_cons, List.length_cons, valNat]
    rw [ih (10 * a + d), ih (10 * 0 + d)]
    ring

theorem valNat_cons (d : Nat) (l : List Nat) :
    valNat (d :: l) = d * 10 ^ l.length + valNat l := by
  simpa [valNat] using valNat_foldl l d

theorem valNat_nil : valNat [] = 0 := rfl

theorem valNat_append (l1 l2 : List Nat) :
    valNat (l1 ++ l2) = valNat l1 * 10 ^ l2.length + valNat l2 := by
  induction l1 with
  | nil => simp [valNat]
  | cons d t ih =>
    rw [List.cons_append, valNat_cons, valNat_cons, ih, List.length_append]
    ring

theorem valNat_replicate_zero (k : Nat) : valNat (List.replicate k 0) = 0 := by
  induction k with
  | zero => rfl
  | succ n ih => rw [List.replicate_succ, valNat_cons, ih]; simp

theorem valNat_padTo (n : Nat) (l : List Nat) : valNat (padTo n l) = valNat l := by
  rw [padTo, valNat_append, valNat_replicate_zero]; simp

theorem padTo_length {n : Nat} {l : List Nat} (h : l.length ≤ n) :
    (padTo n l).length = n := by
  simp [padTo]; omega

theorem padTo_dval {n : Nat} {l : List Nat} (h : dval l) : dval (padTo n l) := by
  intro d hd
  rcases List.mem_append.1 hd with h0 | h0
  · simp_all [List.eq_of_mem_replicate h0]
  · exact h d h0

theorem valNat_eq_zero_iff {l : List Nat} : valNat l = 0 ↔ isNumZero l = true := by
  induction l with
  | nil => simp [valNat, isNumZero]
  | cons d t ih =>
    rw [valNat_cons, isNumZero, List.all_cons]
    constructor
    · intro h
      have hd : d = 0 := by
        by_contra hd0
        have : 1 ≤ d := Nat.one_le_iff_ne_zero.2 hd0
        have : 1 ≤ 10 ^ t.length := Nat.one_le_pow _ _ (by norm_num)
        nlinarith
      have ht : valNat t = 0 := by omega
      simp [hd, isNumZero] at ih ⊢
      exact ih.1 ht
    · intro h
      simp only [Bool.and_eq_true, beq_iff_eq] at h
      have ht : valNat t = 0 := by
        apply ih.2
        simp [isNumZero, h.2]
      simp [h.1, ht]

theorem valNat_lt {l : List Nat} (h : dval l) : valNat l < 10 ^ l.length := by
  induction l with
  | nil => simp [valNat]
  | cons d t ih =>
    have hd : d < 10 := h d (by simp)
    have ht : valNat t < 10 ^ t.length := ih (fun x hx => h x (by simp [hx]))
    rw [valNat_cons, List.length_cons, pow_succ]
    nlinarith

theorem valNat_head_le (d : Nat) (l : List Nat) : d * 10 ^ l.length ≤ valNat (d :: l) := by
  rw [valNat_cons]; omega

theorem valNat_trim (l : List Nat) : valNat (trim l) = valNat l := by
  induction l with
  | nil => rfl
  | cons d t ih =>
    rw [trim]
    by_cases h : d = 0 ∧ t ≠ []
    · rw [if_pos h, ih, valNat_cons, h.1]; simp
    · rw [if_neg h]

theorem trim_ne_nil {l : List Nat} (h : l ≠ []) : trim l ≠ [] := by
  induction l with
  | nil => exact absurd rfl h
  | cons d t ih =>
    rw [trim]
    by_cases h0 : d = 0 ∧ t ≠ []
    · rw [if_pos h0]; exact ih h0.2
    · rw [if_neg h0]; simp

theorem trim_noLead (l : List Nat) : noLead (trim l) := by
  induction l with
  | nil => intro h; simp [trim] at h
  | cons d t ih =>
    rw [trim]
    by_cases h0 : d = 0 ∧ t ≠ []
    · rw [if_pos h0]; exact ih
    · rw [if_neg h0]
      intro hlen
      rcases t with _ | ⟨e, r⟩
      · simp at hlen
      · push_neg at h0
        show d ≠ 0
        intro hd
        exact absurd (h0 hd) (by simp)

theorem trim_dval {l : List Nat} (h : dval l) : dval (trim l) := by
  induction l with
  | nil => simpa [trim]
  | cons d t ih =>
    rw [trim]
    by_cases h0 : d = 0 ∧ t ≠ []
    · rw [if_pos h0]; exact ih (fun x hx => h x (by simp [hx]))
    · rw [if_neg h0]; exact h

theorem trim_replicate_zero {n : Nat} (h : 1 ≤ n) :
    trim (List.replicate n 0) = [0] := by
  induction n with
  | zero => omega
  | succ k ih =>
    rw [List.replicate_succ, trim]
    by_cases hk : k = 0
    · subst hk; simp
    · rw [if_pos ⟨rfl, by simp [hk]⟩]
      exact ih (by omega)

theorem isNumZero_replicate (n : Nat) : isNumZero (List.replicate n 0) = true := by
  simp only [isNumZero, List.all_eq_true]
  intro x hx
  simp [List.eq_of_mem_replicate hx]

/-! ### BigNum basic lemmas -/

theorem natAbs_toZ (b : BigNum) : b.toZ.natAbs = valNat b.num := by
  unfold BigNum.toZ
  by_cases h : b.sign <;> simp [h]

theorem isZero_iff_valNat {b : BigNum} : b.isZero = true ↔ valNat b.num = 0 := by
  rw [BigNum.isZero, ← valNat_eq_zero_iff]

theorem toZ_eq_zero_iff {b : BigNum} : b.toZ = 0 ↔ b.isZero = true := by
  rw [isZero_iff_valNat, ← natAbs_toZ, Int.natAbs_eq_zero]

theorem toZ_sign_true {b : BigNum} (h : b.sign = true) : b.toZ = (valNat b.num : ℤ) := by
  simp [BigNum.toZ, h]

theorem toZ_sign_false {b : BigNum} (h : b.sign = false) : b.toZ = -(valNat b.num : ℤ) := by
  simp [BigNum.toZ, h]

theorem toZ_nonneg_of_sign {b : BigNum} (h : b.sign = true) : 0 ≤ b.toZ := by
  rw [toZ_sign_true h]; positivity

theorem sign_true_of_toZ_pos {b : BigNum} (h : 0 < b.toZ) : b.sign = true := by
  by_contra hs
  have : b.sign = false := by revert hs; cases b.sign <;> simp
  rw [toZ_sign_false this] at h
  omega

theorem toZ_negate (b : BigNum) : b.negate.toZ = -b.toZ := by
  unfold BigNum.negate BigNum.toZ
  by_cases h : b.sign <;> simp [h]

theorem toZ_abs (b : BigNum) : b.abs.toZ = (valNat b.num : ℤ) := by
  simp [BigNum.abs, BigNum.toZ]

theorem valNat_removeLeadingZeros (l : List Nat) :
    valNat (removeLeadingZeros l) = valNat l := by
  induction l with
  | nil => rfl
  | cons d t ih =>
    rw [removeLeadingZeros] at ih ⊢
    by_cases h : d = 0
    · subst h
      rw [List.dropWhile_cons]
      simpa [valNat_cons] using ih
    · rw [List.dropWhile_cons]
      simp [h]

theorem removeLeadingZeros_of_not_zero {l : List Nat} (h : isNumZero l = false) :
    removeLeadingZeros l ≠ [] ∧ noLead (removeLeadingZeros l) ∧
      isNumZero (removeLeadingZeros l) = false := by
  induction l with
  | nil => simp [isNumZero] at h
  | cons d t ih =>
    rw [removeLeadingZeros, List.dropWhile_cons]
    by_cases hd : d = 0
    · subst hd
      simp only [beq_self_eq_true, if_pos]
      have ht : isNumZero t = false := by
        simp [isNumZero] at h ⊢
        simpa using h
      simpa [removeLeadingZeros] using ih ht
    · simp only [beq_iff_eq, hd, if_neg, ite_false]
      refine ⟨by simp, ?_, ?_⟩
      · intro _
        simpa [List.headI] using hd
      · simp [isNumZero, hd]

theorem fromVec_invariant (l : List Nat) (s : Bool) : (BigNum.fromVec l s).invariant := by
  rw [BigNum.fromVec]
  by_cases h : isNumZero l = true
  · rw [if_pos h]
    refine ⟨by simp [BigNum.zero], ?_, fun _ => rfl⟩
    intro hlen
    simp [BigNum.zero] at hlen
  · rw [if_neg h]
    have h' : isNumZero l = false := by revert h; cases isNumZero l <;> simp
    obtain ⟨h1, h2, h3⟩ := removeLeadingZeros_of_not_zero h'
    refine ⟨h1, h2, ?_⟩
    intro hz
    exact absurd hz (by simp [BigNum.isZero, h3])

theorem fromVec_dval {l : List Nat} (h : dval l) (s : Bool) :
    dval (BigNum.fromVec l s).num := by
  rw [BigNum.fromVec]
  by_cases h0 : isNumZero l = true
  · rw [if_pos h0]; intro d hd; simp [BigNum.zero] at hd; omega
  · rw [if_neg h0]
    intro d hd
    exact h d ((List.dropWhile_sublist _).subset hd)

theorem fromVec_wfB {l : List Nat} (h : dval l) (s : Bool) : (BigNum.fromVec l s).wfB := by
  obtain ⟨h1, h2, _⟩ := fromVec_invariant l s
  exact ⟨h1, fromVec_dval h s, h2⟩

theorem toZ_fromVec (l : List Nat) (s : Bool) :
    (BigNum.fromVec l s).toZ = if s then (valNat l : ℤ) else -(valNat l : ℤ) := by
  rw [BigNum.fromVec]
  by_cases h : isNumZero l = true
  · rw [if_pos h]
    have h0 : valNat l = 0 := valNat_eq_zero_iff.2 h
    have hz : (BigNum.zero).toZ = 0 := by simp [BigNum.zero, BigNum.toZ, valNat]
    rw [hz, h0]
    cases s <;> simp
  · rw [if_neg h]
    simp [BigNum.toZ, valNat_removeLeadingZeros]

theorem valNat_fromVec (l : List Nat) (s : Bool) :
    valNat (BigNum.fromVec l s).num = valNat l := by
  have := toZ_fromVec l s
  have h2 := natAbs_toZ (BigNum.fromVec l s)
  cases s <;> simp at this <;> omega

theorem fromVec_sign_true (l : List Nat) : (BigNum.fromVec l true).sign = true := by
  rw [BigNum.fromVec]
  by_cases h : isNumZero l = true
  · rw [if_pos h]; rfl
  · rw [if_neg h]

/-! ### Addition and subtraction loop correctness -/

theorem addAux_length {l1 l2 : List Nat} (h : l1.length = l2.length) :
    (addAux l1 l2).2.length = l1.length := by
  induction l1 generalizing l2 with
  | nil =>
    cases l2 with
    | nil => rfl
    | cons d t => simp at h
  | cons d t ih =>
    cases l2 with
    | nil => simp at h
    | cons e r =>
      simp only [addAux, List.length_cons] at h ⊢
      rw [ih (by omega)]

theorem addAux_val {l1 l2 : List Nat} (h : l1.length = l2.length) :
    valNat (addAux l1 l2).2 + (addAux l1 l2).1 * 10 ^ l1.length =
      valNat l1 + valNat l2 := by
  induction l1 generalizing l2 with
  | nil =>
    cases l2 with
    | nil => simp [addAux, valNat]
    | cons d t => simp at h
  | cons d t ih =>
    cases l2 with
    | nil => simp at h
    | cons e r =>
      have hlen : t.length = r.length := by simpa using h
      have hIH := ih hlen
      have hmod := Nat.div_add_mod (d + e + (addAux t r).1) 10
      simp only [addAux]
      rw [valNat_cons, valNat_cons, valNat_cons, addAux_length hlen,
        List.length_cons, ← hlen, pow_succ]
      zify at hIH hmod ⊢
      linear_combination hIH + (10 : ℤ) ^ t.length * hmod

theorem addAux_dval (l1 l2 : List Nat) : dval (addAux l1 l2).2 := by
  induction l1 generalizing l2 with
  | nil => intro x hx; simp [addAux] at hx
  | cons d t ih =>
    cases l2 with
    | nil => intro x hx; simp [addAux] at hx
    | cons e r =>
      intro x hx
      simp only [addAux, List.mem_cons] at hx
      rcases hx with h | h
      · subst h; exact Nat.mod_lt _ (by norm_num)
      · exact ih r x h

theorem addAux_carry {l1 l2 : List Nat} (h1 : dval l1) (h2 : dval l2) :
    (addAux l1 l2).1 ≤ 1 := by
  induction l1 generalizing l2 with
  | nil => simp [addAux]
  | cons d t ih =>
    cases l2 with
    | nil => simp [addAux]
    | cons e r =>
      have hd : d < 10 := h1 d (by simp)
      have he : e < 10 := h2 e (by simp)
      have hc : (addAux t r).1 ≤ 1 :=
        ih (fun x hx => h1 x (by simp [hx])) (fun x hx => h2 x (by simp [hx]))
      simp only [addAux]
      omega

theorem subAux_length {l1 l2 : List Nat} (h : l1.length = l2.length) :
    (subAux l1 l2).2.length = l1.length := by
  induction l1 generalizing l2 with
  | nil =>
    cases l2 with
    | nil => rfl
    | cons d t => simp at h
  | cons d t ih =>
    cases l2 with
    | nil => simp at h
    | cons e r =>
      simp only [subAux, List.length_cons] at h ⊢
      split <;> simp [ih (by omega : t.length = r.length)]

theorem subAux_borrow (l1 l2 : List Nat) : (subAux l1 l2).1 ≤ 1 := by
  cases l1 with
  | nil => simp [subAux]
  | cons d t =>
    cases l2 with
    | nil => simp [subAux]
    | cons e r =>
      simp only [subAux]
      split <;> simp

theorem subAux_val {l1 l2 : List Nat} (h : l1.length = l2.length) (h2 : dval l2) :
    (valNat (subAux l1 l2).2 : ℤ) =
      (valNat l1 : ℤ) - (valNat l2 : ℤ) + (subAux l1 l2).1 * 10 ^ l1.length := by
  induction l1 generalizing l2 with
  | nil =>
    cases l2 with
    | nil => simp [subAux, valNat]
    | cons d t => simp at h
  | cons d t ih =>
    cases l2 with
    | nil => simp at h
    | cons e r =>
      have hlen : t.length = r.length := by simpa using h
      have hIH := ih hlen (fun x hx => h2 x (by simp [hx]))
      have hb := subAux_borrow t r
      have he : e < 10 := h2 e (by simp)
      simp only [subAux]
      split
      · rename_i hneg
        rw [valNat_cons, valNat_cons, valNat_cons, subAux_length hlen,
          List.length_cons, ← hlen, pow_succ]
        push_cast
        rw [Int.toNat_of_nonneg (by omega)]
        linear_combination hIH
      · rename_i hpos
        push_neg at hpos
        rw [valNat_cons, valNat_cons, valNat_cons, subAux_length hlen,
          List.length_cons, ← hlen, pow_succ]
        push_cast
        rw [Int.toNat_of_nonneg (by omega)]
        linear_combination hIH

theorem subAux_dval {l1 l2 : List Nat} (h1 : dval l1) (h2 : dval l2) :
    dval (subAux l1 l2).2 := by
  induction l1 generalizing l2 with
  | nil => intro x hx; simp [subAux] at hx
  | cons d t ih =>
    cases l2 with
    | nil => intro x hx; simp [subAux] at hx
    | cons e r =>
      have hd : d < 10 := h1 d (by simp)
      have he : e < 10 := h2 e (by simp)
      have hb : (subAux t r).1 ≤ 1 := subAux_borrow t r
      have ht : dval (subAux t r).2 :=
        ih (fun x hx => h1 x (by simp [hx])) (fun x hx => h2 x (by simp [hx]))
      intro x hx
      simp only [subAux] at hx
      split at hx <;> rcases List.mem_cons.1 hx with h0 | h0
      · subst h0; rename_i hneg; omega
      · exact ht x h0
      · subst h0; rename_i hpos; push_neg at hpos; omega
      · exact ht x h0

theorem subAux_self (l : List Nat) : subAux l l = (0, List.replicate l.length 0) := by
  induction l with
  | nil => rfl
  | cons d t ih =>
    simp only [subAux, ih]
    norm_num [List.replicate_succ]

theorem listLt_irrefl (l : List Nat) : listLt l l = false := by
  induction l with
  | nil => rfl
  | cons d t ih => simp [listLt, ih]

theorem listLt_iff {l1 l2 : List Nat} (h : l1.length = l2.length)
    (h1 : dval l1) (h2 : dval l2) :
    listLt l1 l2 = true ↔ valNat l1 < valNat l2 := by
  induction l1 generalizing l2 with
  | nil =>
    cases l2 with
    | nil => simp [listLt, valNat]
    | cons d t => simp at h
  | cons d t ih =>
    cases l2 with
    | nil => simp at h
    | cons e r =>
      have hlen : t.length = r.length := by simpa using h
      have hd : d < 10 := h1 d (by simp)
      have he : e < 10 := h2 e (by simp)
      have htv : valNat t < 10 ^ t.length := valNat_lt (fun x hx => h1 x (by simp [hx]))
      have hrv : valNat r < 10 ^ r.length := valNat_lt (fun x hx => h2 x (by simp [hx]))
      have hIH := ih hlen (fun x hx => h1 x (by simp [hx])) (fun x hx => h2 x (by simp [hx]))
      rw [hlen] at htv
      simp only [listLt, valNat_cons, hlen]
      by_cases hde : d < e
      · simp only [if_pos hde, true_iff]
        have hmul : (d + 1) * 10 ^ r.length ≤ e * 10 ^ r.length :=
          Nat.mul_le_mul_right _ hde
        nlinarith [htv]
      · by_cases hed : e < d
        · simp only [if_neg hde, if_pos hed]
          constructor
          · intro hc; exact absurd hc (by simp)
          · intro hc
            exfalso
            have hmul : (e + 1) * 10 ^ r.length ≤ d * 10 ^ r.length :=
              Nat.mul_le_mul_right _ hed
            nlinarith [hrv]
        · have : d = e := by omega
          subst this
          simp only [if_neg hde, if_neg hed]
          rw [hIH]
          exact (add_lt_add_iff_left _).symm

/-! ### BigNum addition correctness -/

theorem add_toZ {a b : BigNum} (ha : dval a.num) (hb : dval b.num) :
    (a.add b).toZ = a.toZ + b.toZ := by
  unfold BigNum.add
  set m := max a.num.length b.num.length with hm
  set n1 := padTo m a.num with hn1
  set n2 := padTo m b.num with hn2
  have hl1 : n1.length = m := padTo_length (le_max_left _ _)
  have hl2 : n2.length = m := padTo_length (le_max_right _ _)
  have hlen : n1.length = n2.length := by rw [hl1, hl2]
  have hd1 : dval n1 := padTo_dval ha
  have hd2 : dval n2 := padTo_dval hb
  have hv1 : valNat n1 = valNat a.num := valNat_padTo _ _
  have hv2 : valNat n2 = valNat b.num := valNat_padTo _ _
  by_cases hs : a.sign = b.sign
  · rw [if_pos hs]
    have hadd := addAux_val hlen
    rw [hl1, hv1, hv2] at hadd
    have hval : valNat (trim ((addAux n1 n2).1 :: (addAux n1 n2).2)) =
        valNat a.num + valNat b.num := by
      rw [valNat_trim, valNat_cons, addAux_length hlen, hl1]
      linarith
    unfold BigNum.toZ
    simp only [hval]
    rcases hsa : a.sign with _ | _ <;> rcases hsb : b.sign with _ | _ <;>
      simp_all <;> push_cast <;> ring
  · have hborrow_zero : ∀ x y : List Nat, x.length = y.length → dval x → dval y →
        valNat y ≤ valNat x → (valNat (subAux x y).2 : ℤ) = valNat x - valNat y := by
      intro x y hxy dx dy hle
      have hv := subAux_val hxy dy
      have hbd := subAux_borrow x y
      have hsmall : valNat (subAux x y).2 < 10 ^ x.length := by
        have := valNat_lt (@subAux_dval x y dx dy)
        rwa [subAux_length hxy] at this
      rcases Nat.lt_or_ge (subAux x y).1 1 with h0 | h1
      · have : (subAux x y).1 = 0 := by omega
        rw [this] at hv
        push_cast at hv
        linarith
      · have : (subAux x y).1 = 1 := by omega
        rw [this] at hv
        push_cast at hv
        exfalso
        have hle' : (valNat y : ℤ) ≤ valNat x := by exact_mod_cast hle
        have hs' : (valNat (subAux x y).2 : ℤ) < 10 ^ x.length := by exact_mod_cast hsmall
        linarith
    rw [if_neg hs]
    by_cases hlt : listLt n2 n1 = true
    · rw [if_pos hlt]
      have hcmp : valNat n2 < valNat n1 := (listLt_iff hlen.symm hd2 hd1).1 hlt
      have hv := hborrow_zero n1 n2 hlen hd1 hd2 (le_of_lt hcmp)
      have hval : (valNat (trim (subAux n1 n2).2) : ℤ) = valNat a.num - valNat b.num := by
        rw [valNat_trim, hv, hv1, hv2]
      unfold BigNum.toZ
      rcases hsa : a.sign with _ | _ <;> rcases hsb : b.sign with _ | _ <;>
        simp_all <;> push_cast <;> linarith
    · rw [if_neg hlt]
      have hcmp : valNat n1 ≤ valNat n2 := by
        have := (listLt_iff hlen.symm hd2 hd1).not.1 (by simp [hlt])
        omega
      have hv := hborrow_zero n2 n1 hlen.symm hd2 hd1 hcmp
      have hval : (valNat (trim (subAux n2 n1).2) : ℤ) = valNat b.num - valNat a.num := by
        rw [valNat_trim, hv, hv1, hv2]
      unfold BigNum.toZ
      rcases hsa : a.sign with _ | _ <;> rcases hsb : b.sign with _ | _ <;>
        simp_all <;> push_cast <;> linarith

theorem add_wfB {a b : BigNum} (ha : a.wfd) (hb : b.wfd) : (a.add b).wfB := by
  obtain ⟨ha1, ha2⟩ := ha
  obtain ⟨hb1, hb2⟩ := hb
  unfold BigNum.add
  set m := max a.num.length b.num.length with hm
  have hm1 : 1 ≤ m := by
    have h1 : 1 ≤ a.num.length := by
      cases h : a.num
      · exact absurd h ha1
      · simp
    omega
  set n1 := padTo m a.num with hn1
  set n2 := padTo m b.num with hn2
  have hl1 : n1.length = m := padTo_length (le_max_left _ _)
  have hl2 : n2.length = m := padTo_length (le_max_right _ _)
  have hlen : n1.length = n2.length := by rw [hl1, hl2]
  have hd1 : dval n1 := padTo_dval ha2
  have hd2 : dval n2 := padTo_dval hb2
  have haux : ∀ x y : List Nat, x.length = y.length → dval x → dval y →
      x.length = m → (⟨a.sign, trim (subAux x y).2⟩ : BigNum).wfB ∧
        (⟨b.sign, trim (subAux x y).2⟩ : BigNum).wfB := by
    intro x y hxy dx dy hxm
    have hne : (subAux x y).2 ≠ [] := by
      have := subAux_length hxy
      intro hcon
      rw [hcon] at this
      simp at this
      omega
    have hwf : trim (subAux x y).2 ≠ [] ∧ dval (trim (subAux x y).2) ∧
        noLead (trim (subAux x y).2) :=
      ⟨trim_ne_nil hne, trim_dval (subAux_dval dx dy), trim_noLead _⟩
    exact ⟨hwf, hwf⟩
  by_cases hs : a.sign = b.sign
  · rw [if_pos hs]
    refine ⟨trim_ne_nil (by simp), trim_dval ?_, trim_noLead _⟩
    intro x hx
    rcases List.mem_cons.1 hx with h0 | h0
    · subst h0
      rw [hn1] at hd1
      rw [hn2] at hd2
      have hc := addAux_carry hd1 hd2
      omega
    · exact addAux_dval n1 n2 x h0
  · rw [if_neg hs]
    by_cases hlt : listLt n2 n1 = true
    · rw [if_pos hlt]
      exact (haux n1 n2 hlen hd1 hd2 hl1).1
    · rw [if_neg hlt]
      exact (haux n2 n1 hlen.symm hd2 hd1 hl2).2

theorem add_sign_same {a b : BigNum} (h : a.sign = b.sign) :
    (a.add b).sign = a.sign := by
  unfold BigNum.add
  rw [if_pos h]

theorem zero_wfB : (BigNum.zero).wfB := by decide

theorem zero_toZ : (BigNum.zero).toZ = 0 := by decide

theorem zero_valNat : valNat (BigNum.zero).num = 0 := by decide

theorem one_eq : BigNum.one = ⟨true, [1]⟩ := by decide

theorem toZ_sub {a b : BigNum} (ha : dval a.num) (hb : dval b.num) :
    (a.sub b).toZ = a.toZ - b.toZ := by
  unfold BigNum.sub
  rw [add_toZ ha (show dval b.negate.num from hb), toZ_negate]
  ring

theorem sub_wfB {a b : BigNum} (ha : a.wfd) (hb : b.wfd) : (a.sub b).wfB := by
  unfold BigNum.sub
  exact add_wfB ha hb

/-! ### BigNum multiplication correctness -/

/-- Digits may reach 10: the division loop multiplies by the single-cell
vector `[10]`. -/
def dvalTen (l : List Nat) : Prop := ∀ d ∈ l, d ≤ 10

instance (l : List Nat) : Decidable (dvalTen l) := List.decidableBAll _ l

theorem dval_dvalTen {l : List Nat} (h : dval l) : dvalTen l :=
  fun d hd => le_of_lt (h d hd)

theorem mulAux_length (n : Nat) (l : List Nat) : (mulAux n l).2.length = l.length := by
  induction l with
  | nil => rfl
  | cons d t ih => simp only [mulAux, List.length_cons]; rw [ih]

theorem mulAux_val (n : Nat) (l : List Nat) :
    valNat (mulAux n l).2 + (mulAux n l).1 * 10 ^ l.length = n * valNat l := by
  induction l with
  | nil => simp [mulAux, valNat]
  | cons d t ih =>
    have hmod := Nat.div_add_mod (n * d + (mulAux n t).1) 10
    simp only [mulAux]
    rw [valNat_cons, valNat_cons, mulAux_length, List.length_cons, pow_succ]
    zify at ih hmod ⊢
    linear_combination ih + (10 : ℤ) ^ t.length * hmod

theorem mulAux_dval (n : Nat) (l : List Nat) : dval (mulAux n l).2 := by
  induction l with
  | nil => intro x hx; simp [mulAux] at hx
  | cons d t ih =>
    intro x hx
    simp only [mulAux] at hx
    rcases List.mem_cons.1 hx with h | h
    · subst h; exact Nat.mod_lt _ (by norm_num)
    · exact ih x h

theorem mulAux_carry {n : Nat} (hn : n ≤ 10) {l : List Nat} (hl : dval l) :
    (mulAux n l).1 ≤ 9 := by
  induction l with
  | nil => simp [mulAux]
  | cons d t ih =>
    have hd : d < 10 := hl d (by simp)
    have ht : (mulAux n t).1 ≤ 9 := ih (fun x hx => hl x (by simp [hx]))
    simp only [mulAux]
    have : n * d ≤ 10 * 9 := Nat.mul_le_mul hn (by omega)
    omega

theorem valNat_append_zeros (l : List Nat) (i : Nat) :
    valNat (l ++ List.replicate i 0) = valNat l * 10 ^ i := by
  rw [valNat_append, valNat_replicate_zero, List.length_replicate]
  omega

theorem fromVec_ne_nil (l : List Nat) (s : Bool) : (BigNum.fromVec l s).num ≠ [] :=
  (fromVec_invariant l s).1

theorem mulLoop_toZ {aD : List Nat} (hA : dval aD) :
    ∀ (ds : List Nat) (i : Nat) (acc : BigNum), dvalTen ds → acc.num ≠ [] →
      dval acc.num →
      (BigNum.mulLoop aD ds i acc).toZ =
        acc.toZ + (valNat ds.reverse : ℤ) * valNat aD * 10 ^ i := by
  intro ds
  induction ds with
  | nil => intro i acc _ _ _; simp [BigNum.mulLoop, valNat]
  | cons n rest ih =>
    intro i acc hds hne hdv
    have hn : n ≤ 10 := hds n (by simp)
    have hrest : dvalTen rest := fun x hx => hds x (by simp [hx])
    simp only [BigNum.mulLoop]
    set p := mulAux n aD with hp
    set temp := (if p.1 > 0 then [p.1] else []) ++ p.2 ++ List.replicate i 0 with htemp
    have hmv := mulAux_val n aD
    have hml := mulAux_length n aD
    rw [← hp] at hmv hml
    have htv : valNat temp = n * valNat aD * 10 ^ i := by
      rw [htemp]
      by_cases hc : p.1 > 0
      · rw [if_pos hc]
        rw [valNat_append, valNat_replicate_zero, List.length_replicate,
          valNat_append]
        have h1 : valNat [p.1] = p.1 := by simp [valNat]
        rw [h1, hml]
        zify at hmv ⊢
        linear_combination (10 : ℤ) ^ i * hmv
      · rw [if_neg hc]
        have hc0 : p.1 = 0 := by omega
        rw [hc0] at hmv
        simp only [zero_mul, add_zero] at hmv
        rw [List.nil_append, valNat_append, valNat_replicate_zero,
          List.length_replicate]
        zify at hmv ⊢
        linear_combination (10 : ℤ) ^ i * hmv
    have hdtemp : dval temp := by
      rw [htemp]
      intro x hx
      rcases List.mem_append.1 hx with h0 | h0
      · rcases List.mem_append.1 h0 with h1 | h1
        · have hcar : p.1 ≤ 9 := by rw [hp]; exact mulAux_carry hn hA
          by_cases hc : p.1 > 0
          · rw [if_pos hc] at h1
            simp at h1
            omega
          · rw [if_neg hc] at h1
            simp at h1
        · have := mulAux_dval n aD
          rw [← hp] at this
          exact this x h1
      · have := List.eq_of_mem_replicate h0
        omega
    have hfv : (BigNum.fromVec temp true).toZ = ((n * valNat aD * 10 ^ i : Nat) : ℤ) := by
      rw [toZ_fromVec]
      simp [htv]
    have hadd := add_toZ hdv (fromVec_dval hdtemp true)
    have hwf := add_wfB ⟨hne, hdv⟩ ⟨fromVec_ne_nil temp true, fromVec_dval hdtemp true⟩
    rw [ih (i + 1) _ hrest hwf.1 hwf.2.1]
    rw [hadd, hfv]
    have hrev : valNat ((n :: rest).reverse) = valNat rest.reverse * 10 + n := by
      rw [List.reverse_cons, valNat_append]
      simp [valNat_cons, valNat]
    rw [hrev]
    push_cast
    ring

theorem mulLoop_wfB {aD : List Nat} (hA : dval aD) :
    ∀ (ds : List Nat) (i : Nat) (acc : BigNum), dvalTen ds → acc.wfB →
      (BigNum.mulLoop aD ds i acc).wfB := by
  intro ds
  induction ds with
  | nil => intro i acc _ h; simpa [BigNum.mulLoop] using h
  | cons n rest ih =>
    intro i acc hds hacc
    have hn : n ≤ 10 := hds n (by simp)
    simp only [BigNum.mulLoop]
    apply ih _ _ (fun x hx => hds x (by simp [hx]))
    apply add_wfB ⟨hacc.1, hacc.2.1⟩
    refine ⟨fromVec_ne_nil _ true, fromVec_dval ?_ true⟩
    intro x hx
    rcases List.mem_append.1 hx with h0 | h0
    · rcases List.mem_append.1 h0 with h1 | h1
      · have hcar : (mulAux n aD).1 ≤ 9 := mulAux_carry hn hA
        by_cases hc : (mulAux n aD).1 > 0
        · rw [if_pos hc] at h1
          simp at h1
          omega
        · rw [if_neg hc] at h1
          simp at h1
      · exact mulAux_dval n aD x h1
    · have := List.eq_of_mem_replicate h0
      omega

theorem mulLoop_sign {aD : List Nat} :
    ∀ (ds : List Nat) (i : Nat) (acc : BigNum), acc.sign = true →
      (BigNum.mulLoop aD ds i acc).sign = true := by
  intro ds
  induction ds with
  | nil => intro i acc h; simpa [BigNum.mulLoop] using h
  | cons n rest ih =>
    intro i acc hacc
    simp only [BigNum.mulLoop]
    apply ih
    rw [add_sign_same, hacc]
    rw [hacc, fromVec_sign_true]

theorem mul_toZ {a b : BigNum} (ha : dval a.num) (hb : dvalTen b.num) :
    (a.mul b).toZ = a.toZ * b.toZ := by
  unfold BigNum.mul
  have hloop := mulLoop_toZ ha b.num.reverse 0 BigNum.zero
    (by intro x hx; exact hb x (by simpa using hx)) (by simp [BigNum.zero])
    (by intro x hx; simp [BigNum.zero] at hx; omega)
  rw [List.reverse_reverse] at hloop
  simp only [zero_toZ, pow_zero, mul_one, zero_add] at hloop
  by_cases hs : a.sign = b.sign
  · rw [if_neg (by simp [hs])]
    rw [hloop]
    unfold BigNum.toZ
    rcases hsa : a.sign with _ | _ <;> rcases hsb : b.sign with _ | _ <;>
      simp_all <;> push_cast <;> ring
  · rw [if_pos hs]
    rw [toZ_negate, hloop]
    unfold BigNum.toZ
    rcases hsa : a.sign with _ | _ <;> rcases hsb : b.sign with _ | _ <;>
      simp_all <;> push_cast <;> ring

theorem mul_wfB {a b : BigNum} (ha : dval a.num) (hb : dvalTen b.num) :
    (a.mul b).wfB := by
  unfold BigNum.mul
  have hloop := mulLoop_wfB ha b.num.reverse 0 BigNum.zero
    (by intro x hx; exact hb x (by simpa using hx)) zero_wfB
  by_cases hs : a.sign = b.sign
  · rw [if_neg (by simp [hs])]
    exact hloop
  · rw [if_pos hs]
    exact hloop

theorem mul_sign_true {a b : BigNum} (ha : a.sign = true) (hb : b.sign = true) :
    (a.mul b).sign = true := by
  unfold BigNum.mul
  rw [if_neg (by simp [ha, hb])]
  exact mulLoop_sign _ _ _ rfl

/-! ### Comparison correctness (positive, trimmed operands) -/

theorem valNat_ge_pow {l : List Nat} (hnl : noLead l) (h2 : 2 ≤ l.length) :
    10 ^ (l.length - 1) ≤ valNat l := by
  cases l with
  | nil => simp at h2
  | cons d t =>
    have hd : d ≠ 0 := hnl (by simpa using h2)
    rw [valNat_cons]
    have : 1 ≤ d := Nat.one_le_iff_ne_zero.2 hd
    simp only [List.length_cons, Nat.add_sub_cancel]
    nlinarith [Nat.zero_le (valNat t), pow_pos (show 0 < 10 by norm_num) t.length]

theorem cmpDigits_lt_iff {l1 l2 : List Nat} (h : l1.length = l2.length)
    (h1 : dval l1) (h2 : dval l2) :
    (cmpDigits l1 l2 true = Ordering.lt ↔ valNat l1 < valNat l2) := by
  induction l1 generalizing l2 with
  | nil =>
    cases l2 with
    | nil => simp [cmpDigits, valNat]
    | cons d t => simp at h
  | cons d t ih =>
    cases l2 with
    | nil => simp at h
    | cons e r =>
      have hlen : t.length = r.length := by simpa using h
      have hd : d < 10 := h1 d (by simp)
      have he : e < 10 := h2 e (by simp)
      have htv : valNat t < 10 ^ t.length := valNat_lt (fun x hx => h1 x (by simp [hx]))
      have hrv : valNat r < 10 ^ r.length := valNat_lt (fun x hx => h2 x (by simp [hx]))
      have hIH := ih hlen (fun x hx => h1 x (by simp [hx])) (fun x hx => h2 x (by simp [hx]))
      rw [hlen] at htv
      rw [valNat_cons, valNat_cons, hlen]
      by_cases hed : e < d
      · have hres : cmpDigits (d :: t) (e :: r) true = Ordering.gt := by
          simp [cmpDigits, hed]
        rw [hres]
        constructor
        · intro hc; exact absurd hc (by simp)
        · intro hc
          exfalso
          have hmul : (e + 1) * 10 ^ r.length ≤ d * 10 ^ r.length :=
            Nat.mul_le_mul_right _ hed
          nlinarith [hrv]
      · by_cases hde : d < e
        · have hres : cmpDigits (d :: t) (e :: r) true = Ordering.lt := by
            simp [cmpDigits, hed, hde]
          rw [hres]
          simp only [true_iff]
          have hmul : (d + 1) * 10 ^ r.length ≤ e * 10 ^ r.length :=
            Nat.mul_le_mul_right _ hde
          nlinarith [htv]
        · have heq : d = e := by omega
          subst heq
          have hres : cmpDigits (d :: t) (d :: r) true = cmpDigits t r true := by
            simp [cmpDigits]
          rw [hres, hIH]
          exact (add_lt_add_iff_left _).symm

theorem cmpB_lt_iff {a b : BigNum} (hsa : a.sign = true) (hsb : b.sign = true)
    (ha : a.wfB) (hb : b.wfB) :
    (cmpB a b = Ordering.lt ↔ valNat a.num < valNat b.num) := by
  have ha1 : 1 ≤ a.num.length := by
    cases hx : a.num
    · exact absurd hx ha.1
    · simp
  have hb1 : 1 ≤ b.num.length := by
    cases hx : b.num
    · exact absurd hx hb.1
    · simp
  unfold cmpB
  rw [hsa, hsb]
  simp only [not_true_eq_false, and_false, false_and, if_false, if_true, ite_true, ite_false]
  by_cases hba : b.num.length < a.num.length
  · rw [if_pos hba]
    constructor
    · intro hc; exact absurd hc (by simp)
    · intro hc
      exfalso
      have hge : 10 ^ (a.num.length - 1) ≤ valNat a.num :=
        valNat_ge_pow ha.2.2 (by omega)
      have hlt : valNat b.num < 10 ^ b.num.length := valNat_lt hb.2.1
      have hp : (10 : Nat) ^ b.num.length ≤ 10 ^ (a.num.length - 1) :=
        Nat.pow_le_pow_right (by norm_num) (by omega)
      omega
  · rw [if_neg hba]
    by_cases hab : a.num.length < b.num.length
    · rw [if_pos hab]
      simp only [true_iff]
      have hge : 10 ^ (b.num.length - 1) ≤ valNat b.num :=
        valNat_ge_pow hb.2.2 (by omega)
      have hlt : valNat a.num < 10 ^ a.num.length := valNat_lt ha.2.1
      have hp : (10 : Nat) ^ a.num.length ≤ 10 ^ (b.num.length - 1) :=
        Nat.pow_le_pow_right (by norm_num) (by omega)
      omega
    · rw [if_neg hab]
      exact cmpDigits_lt_iff (by omega) ha.2.1 hb.2.1

theorem cmpB_lt_of_neg_sign {a b : BigNum} (ha : a.sign = false) (hb : b.sign = true) :
    cmpB a b = Ordering.lt := by
  unfold cmpB
  rw [ha, hb]
  simp

/-! ### Division loop correctness -/

theorem valNat_eq_natAbs_sub {a b : BigNum} (ha : dval a.num) (hb : dval b.num) :
    (valNat (a.sub b).num : ℤ) = |a.toZ - b.toZ| := by
  rw [← natAbs_toZ, toZ_sub ha hb, Int.abs_eq_natAbs]

theorem divInner_ok {oth : BigNum} (hwf : oth.wfB) (hs : oth.sign = true)
    (hpos : 0 < valNat oth.num) :
    ∀ (fuel : Nat) (rem cnt : BigNum), rem.wfB →
      (rem.sign = true ∨ valNat rem.num = 0) →
      cnt.wfB → cnt.sign = true → valNat rem.num < fuel →
      valNat (divInner oth fuel rem cnt).1.num = valNat rem.num % valNat oth.num ∧
      (divInner oth fuel rem cnt).1.wfB ∧
      ((divInner oth fuel rem cnt).1.sign = true ∨
        valNat (divInner oth fuel rem cnt).1.num = 0) ∧
      (divInner oth fuel rem cnt).2.wfB ∧
      (divInner oth fuel rem cnt).2.sign = true ∧
      valNat (divInner oth fuel rem cnt).2.num =
        valNat cnt.num + valNat rem.num / valNat oth.num := by
  intro fuel
  induction fuel with
  | zero => intro rem cnt _ _ _ _ hlt; omega
  | succ f ih =>
    intro rem cnt hrem hrs hcnt hcs hlt
    simp only [divInner]
    by_cases hcond : cmpB rem oth ≠ Ordering.lt
    · rw [if_pos hcond]
      have hsr : rem.sign = true := by
        by_contra hx
        have hxf : rem.sign = false := by revert hx; cases rem.sign <;> simp
        exact hcond (cmpB_lt_of_neg_sign hxf hs)
      have hge : valNat oth.num ≤ valNat rem.num := by
        have := (cmpB_lt_iff hsr hs hrem hwf).not.1 hcond
        omega
      set rem2 := rem.sub oth with hrem2
      set cnt2 := cnt.add (BigNum.fromVec [1] true) with hcnt2
      have hrem2v : valNat rem2.num = valNat rem.num - valNat oth.num := by
        have h1 : (valNat rem2.num : ℤ) = |rem.toZ - oth.toZ| :=
          valNat_eq_natAbs_sub hrem.2.1 hwf.2.1
        rw [toZ_sign_true hsr, toZ_sign_true hs] at h1
        rw [abs_of_nonneg (show (0:ℤ) ≤ (valNat rem.num : ℤ) - (valNat oth.num : ℤ) by omega)] at h1
        omega
      have hrem2wf : rem2.wfB := sub_wfB ⟨hrem.1, hrem.2.1⟩ ⟨hwf.1, hwf.2.1⟩
      have hrem2s : rem2.sign = true ∨ valNat rem2.num = 0 := by
        by_cases h0 : valNat rem2.num = 0
        · exact Or.inr h0
        · left
          apply sign_true_of_toZ_pos
          have hz2 : rem2.toZ = rem.toZ - oth.toZ := by
            rw [hrem2, toZ_sub hrem.2.1 hwf.2.1]
          rw [toZ_sign_true hsr, toZ_sign_true hs] at hz2
          have hv2 : rem2.toZ.natAbs = valNat rem2.num := natAbs_toZ rem2
          omega
      have honev : valNat (BigNum.fromVec [1] true).num = 1 := by decide
      have honewf : (BigNum.fromVec [1] true).wfB := by decide
      have hcnt2wf : cnt2.wfB := add_wfB ⟨hcnt.1, hcnt.2.1⟩ ⟨honewf.1, honewf.2.1⟩
      have hcnt2s : cnt2.sign = true := by
        rw [hcnt2, add_sign_same (by rw [hcs, fromVec_sign_true]), hcs]
      have hcnt2v : valNat cnt2.num = valNat cnt.num + 1 := by
        have h1 := add_toZ hcnt.2.1 (show dval (BigNum.fromVec [1] true).num from honewf.2.1)
        rw [← hcnt2] at h1
        rw [toZ_sign_true hcs, toZ_sign_true (fromVec_sign_true _)] at h1
        have h2 := natAbs_toZ cnt2
        have h3 : valNat (BigNum.fromVec [1] true).num = 1 := honev
        rw [h3] at h1
        rw [h1] at h2
        have h4 : ((valNat cnt.num : ℤ) + 1).natAbs = valNat cnt.num + 1 := by omega
        omega
      have hfuel : valNat rem2.num < f := by omega
      have hres := ih rem2 cnt2 hrem2wf hrem2s hcnt2wf hcnt2s hfuel
      refine ⟨?_, hres.2.1, hres.2.2.1, hres.2.2.2.1, hres.2.2.2.2.1, ?_⟩
      · rw [hres.1, hrem2v]
        exact (Nat.mod_eq_sub_mod hge).symm
      · rw [hres.2.2.2.2.2, hcnt2v, hrem2v]
        have hdiv : valNat rem.num / valNat oth.num =
            (valNat rem.num - valNat oth.num) / valNat oth.num + 1 :=
          Nat.div_eq_sub_div hpos hge
        omega
    · rw [if_neg hcond]
      push_neg at hcond
      rcases hrs with hsr | h0
      · have hlt2 : valNat rem.num < valNat oth.num :=
          (cmpB_lt_iff hsr hs hrem hwf).1 hcond
        refine ⟨?_, hrem, Or.inl hsr, hcnt, hcs, ?_⟩
        · show valNat rem.num = _
          exact (Nat.mod_eq_of_lt hlt2).symm
        · show valNat cnt.num = _
          rw [Nat.div_eq_of_lt hlt2]
          omega
      · refine ⟨?_, hrem, Or.inr h0, hcnt, hcs, ?_⟩
        · show valNat rem.num = _
          rw [h0, Nat.zero_mod]
        · show valNat cnt.num = _
          rw [h0, Nat.zero_div]
          omega

theorem add_sign_of_left_zero {a b : BigNum} (ha : dval a.num) (hb : dval b.num)
    (hv : valNat a.num = 0) (hs : ¬a.sign = b.sign) : (a.add b).sign = b.sign := by
  unfold BigNum.add
  rw [if_neg hs]
  have hl1 : (padTo (max a.num.length b.num.length) a.num).length =
      max a.num.length b.num.length := padTo_length (le_max_left _ _)
  have hl2 : (padTo (max a.num.length b.num.length) b.num).length =
      max a.num.length b.num.length := padTo_length (le_max_right _ _)
  have hfalse : listLt (padTo (max a.num.length b.num.length) b.num)
      (padTo (max a.num.length b.num.length) a.num) = false := by
    have hiff := listLt_iff (by rw [hl1, hl2]) (padTo_dval hb) (padTo_dval ha)
    rw [valNat_padTo, valNat_padTo, hv] at hiff
    rcases hres : listLt (padTo (max a.num.length b.num.length) b.num)
        (padTo (max a.num.length b.num.length) a.num) with _ | _
    · rfl
    · exact absurd (hiff.1 hres) (by omega)
  rw [if_neg (by simp [hfalse])]

/-- The `x * 10 + y` pattern shared by the remainder shift and the quotient
append in the division digit loop. -/
theorem mulTenAdd {x y : BigNum} (hx : dval x.num)
    (hxs : x.sign = true ∨ valNat x.num = 0) (hy : y.wfB) (hys : y.sign = true) :
    valNat ((x.mul (BigNum.fromVec [10] true)).add y).num =
      valNat x.num * 10 + valNat y.num ∧
    ((x.mul (BigNum.fromVec [10] true)).add y).sign = true ∧
    ((x.mul (BigNum.fromVec [10] true)).add y).wfB := by
  have hten : dvalTen (BigNum.fromVec [10] true).num := by decide
  have htenz : (BigNum.fromVec [10] true).toZ = 10 := by decide
  have htens : (BigNum.fromVec [10] true).sign = true := by decide
  set X := x.mul (BigNum.fromVec [10] true) with hX
  have hXwf : X.wfB := mul_wfB hx hten
  have hXz : X.toZ = x.toZ * 10 := by rw [hX, mul_toZ hx hten, htenz]
  have hXv : valNat X.num = valNat x.num * 10 := by
    have h1 := natAbs_toZ X
    rw [hXz] at h1
    have h2 := natAbs_toZ x
    rcases hxs with hst | h0
    · rw [toZ_sign_true hst] at h1
      have : ((valNat x.num : ℤ) * 10).natAbs = valNat x.num * 10 := by
        push_cast
        omega
      omega
    · have hx0 : x.toZ = 0 := by
        have := natAbs_toZ x
        omega
      rw [hx0] at h1
      simp at h1
      omega
  have hres : valNat ((X.add y).num) = valNat x.num * 10 + valNat y.num := by
    have h1 := add_toZ hXwf.2.1 hy.2.1
    have h2 := natAbs_toZ (X.add y)
    rw [h1, hXz, toZ_sign_true hys] at h2
    rcases hxs with hst | h0
    · rw [toZ_sign_true hst] at h2
      have : ((valNat x.num : ℤ) * 10 + (valNat y.num : ℤ)).natAbs =
          valNat x.num * 10 + valNat y.num := by omega
      omega
    · have hx0 : x.toZ = 0 := by
        have := natAbs_toZ x
        omega
      rw [hx0] at h2
      simp at h2
      omega
  refine ⟨hres, ?_, add_wfB ⟨hXwf.1, hXwf.2.1⟩ ⟨hy.1, hy.2.1⟩⟩
  by_cases hsx : X.sign = y.sign
  · rw [add_sign_same hsx, hsx, hys]
  · have hXv0 : valNat X.num = 0 := by
      rcases hxs with hst | h0
      · exfalso
        apply hsx
        rw [hX, mul_sign_true hst htens, hys]
      · rw [hXv, h0]
    rw [add_sign_of_left_zero hXwf.2.1 hy.2.1 hXv0 hsx, hys]

theorem divFold_ok {oth : BigNum} (hwf : oth.wfB) (hs : oth.sign = true)
    (hpos : 0 < valNat oth.num) :
    ∀ (digits : List Nat) (rem res : BigNum), dval digits → rem.wfB →
      (rem.sign = true ∨ valNat rem.num = 0) →
      valNat rem.num < valNat oth.num → res.wfB → res.sign = true →
      valNat (divFold oth digits rem res).2.num =
        valNat res.num * 10 ^ digits.length +
          (valNat rem.num * 10 ^ digits.length + valNat digits) / valNat oth.num ∧
      (divFold oth digits rem res).2.wfB ∧
      (divFold oth digits rem res).2.sign = true := by
  intro digits
  induction digits with
  | nil =>
    intro rem res _ hrem hrs hrlt hres hress
    refine ⟨?_, hres, hress⟩
    show valNat res.num = _
    simp only [List.length_nil, pow_zero, mul_one, valNat_nil, Nat.add_zero]
    rw [Nat.div_eq_of_lt hrlt]
    omega
  | cons d rest ih =>
    intro rem res hdig hrem hrs hrlt hres hress
    have hd10 : d < 10 := hdig d (by simp)
    have hddv : dval [d] := by intro x hx; simp at hx; omega
    have hstep := mulTenAdd (x := rem) (y := BigNum.fromVec [d] true)
      hrem.2.1 hrs (fromVec_wfB hddv true) (fromVec_sign_true _)
    have hdv : valNat (BigNum.fromVec [d] true).num = d := by
      rw [valNat_fromVec]
      simp [valNat_cons, valNat]
    rw [hdv] at hstep
    obtain ⟨hrem1v, hrem1s, hrem1wf⟩ := hstep
    have hdi := divInner_ok hwf hs hpos
      (valNat ((rem.mul (BigNum.fromVec [10] true)).add (BigNum.fromVec [d] true)).num + 1)
      ((rem.mul (BigNum.fromVec [10] true)).add (BigNum.fromVec [d] true))
      BigNum.zero hrem1wf (Or.inl hrem1s) zero_wfB rfl (by omega)
    obtain ⟨hm, hmwf, hms, hqwf, hqs, hqv⟩ := hdi
    rw [zero_valNat, Nat.zero_add] at hqv
    have hstep2 := mulTenAdd (x := res)
      (y := (divInner oth
        (valNat ((rem.mul (BigNum.fromVec [10] true)).add (BigNum.fromVec [d] true)).num + 1)
        ((rem.mul (BigNum.fromVec [10] true)).add (BigNum.fromVec [d] true)) BigNum.zero).2)
      hres.2.1 (Or.inl hress) hqwf hqs
    obtain ⟨hres2v, hres2s, hres2wf⟩ := hstep2
    have hmlt : valNat (divInner oth
        (valNat ((rem.mul (BigNum.fromVec [10] true)).add (BigNum.fromVec [d] true)).num + 1)
        ((rem.mul (BigNum.fromVec [10] true)).add (BigNum.fromVec [d] true)) BigNum.zero).1.num <
        valNat oth.num := by
      rw [hm]
      exact Nat.mod_lt _ hpos
    have hrec := ih _ _ (fun x hx => hdig x (by simp [hx])) hmwf hms hmlt hres2wf hres2s
    simp only [divFold]
    refine ⟨?_, hrec.2.1, hrec.2.2⟩
    rw [hrec.1, hres2v, hqv, hm, hrem1v]
    set V := valNat oth.num with hV
    set A := valNat rem.num with hA
    set R := valNat rest with hR
    set k := rest.length with hk
    have hsplit := Nat.div_add_mod (A * 10 + d) V
    have hkey : (A * 10 ^ (k + 1) + valNat (d :: rest)) / V =
        ((A * 10 + d) / V) * 10 ^ k + (((A * 10 + d) % V) * 10 ^ k + R) / V := by
      have h1 : A * 10 ^ (k + 1) + valNat (d :: rest) =
          (((A * 10 + d) % V) * 10 ^ k + R) + V * (((A * 10 + d) / V) * 10 ^ k) := by
        rw [valNat_cons, ← hR, ← hk]
        have hsplit10 : (V * ((A * 10 + d) / V) + (A * 10 + d) % V) * 10 ^ k =
            (A * 10 + d) * 10 ^ k := by rw [hsplit]
        ring_nf at hsplit10 ⊢
        linarith [hsplit10]
      rw [h1, Nat.add_mul_div_left _ _ hpos]
      omega
    rw [List.length_cons, ← hk, hkey]
    ring

theorem abs_wfB {b : BigNum} (hb : b.wfB) : b.abs.wfB := hb

theorem divCore_ok {a b : BigNum} (ha : a.wfd) (hb : b.wfB) (hbz : b.isZero = false) :
    valNat (a.divCore b).num = valNat a.num / valNat b.num ∧
    (a.divCore b).wfB ∧
    ((a.divCore b).sign = true ↔
      (a.sign = b.sign ∨ valNat a.num / valNat b.num = 0)) := by
  have hpos : 0 < valNat b.num := by
    rcases Nat.eq_zero_or_pos (valNat b.num) with h0 | h0
    · exact absurd (isZero_iff_valNat.2 h0) (by simp [hbz])
    · exact h0
  unfold BigNum.divCore
  by_cases hz : a.isZero
  · rw [if_pos hz]
    have h0 : valNat a.num = 0 := isZero_iff_valNat.1 hz
    refine ⟨?_, zero_wfB, ?_⟩
    · rw [zero_valNat, h0, Nat.zero_div]
    · rw [h0, Nat.zero_div]
      simp [BigNum.zero]
  · rw [if_neg hz]
    simp only []
    have hfold := @divFold_ok b.abs (abs_wfB hb) rfl hpos a.abs.num
      BigNum.zero BigNum.zero ha.2 zero_wfB (Or.inl rfl)
      (by rw [zero_valNat]; exact hpos) zero_wfB rfl
    rw [zero_valNat] at hfold
    simp only [Nat.zero_mul, Nat.zero_add] at hfold
    obtain ⟨hv, hwfr, hsr⟩ := hfold
    set res := (divFold b.abs a.abs.num BigNum.zero BigNum.zero).2 with hres
    have hv2 : valNat res.num = valNat a.num / valNat b.num := hv
    by_cases hcond : a.sign ≠ b.sign ∧ ¬res.isZero = true
    · rw [if_pos hcond]
      refine ⟨hv2, ⟨hwfr.1, hwfr.2.1, hwfr.2.2⟩, ?_⟩
      constructor
      · intro hfalse; exact absurd hfalse (by simp)
      · intro hor
        exfalso
        rcases hor with heq | h0
        · exact hcond.1 heq
        · exact hcond.2 (isZero_iff_valNat.2 (by rw [← hv2] at h0; exact h0))
    · rw [if_neg hcond]
      refine ⟨hv2, ⟨hwfr.1, hwfr.2.1, hwfr.2.2⟩, ?_⟩
      simp only [true_iff]
      by_cases heq : a.sign = b.sign
      · exact Or.inl heq
      · right
        rw [← hv2]
        apply isZero_iff_valNat.1
        by_contra hnz
        exact hcond ⟨heq, by simp [hnz]⟩

theorem remCore_ok {a b : BigNum} (ha : a.wfd) (hb : b.wfB) (hbz : b.isZero = false) :
    valNat (a.remCore b).num = valNat a.num % valNat b.num ∧
    (a.remCore b).sign = a.sign ∧ (a.remCore b).wfB := by
  have hpos : 0 < valNat b.num := by
    rcases Nat.eq_zero_or_pos (valNat b.num) with h0 | h0
    · exact absurd (isZero_iff_valNat.2 h0) (by simp [hbz])
    · exact h0
  obtain ⟨hqv, hqwf, hqs⟩ := divCore_ok ha hb hbz
  set q := a.divCore b with hq
  set V := valNat b.num with hV
  set Q := valNat a.num / V with hQdef
  set M := valNat a.num % V with hMdef
  have hQM : V * Q + M = valNat a.num := Nat.div_add_mod _ _
  have hMlt : M < V := Nat.mod_lt _ hpos
  have hqmulwf : (q.mul b).wfB := mul_wfB hqwf.2.1 (dval_dvalTen hb.2.1)
  have hswf : (a.sub (q.mul b)).wfB := sub_wfB ha ⟨hqmulwf.1, hqmulwf.2.1⟩
  have hsz : (a.sub (q.mul b)).toZ = a.toZ - q.toZ * b.toZ := by
    rw [toZ_sub ha.2 hqmulwf.2.1, mul_toZ hqwf.2.1 (dval_dvalTen hb.2.1)]
  have hqbz : q.toZ * b.toZ = (if a.sign then (1 : ℤ) else -1) * (Q * V : ℤ) := by
    by_cases hQ0 : Q = 0
    · have hqz : q.toZ = 0 := by
        rw [← Int.natAbs_eq_zero, natAbs_toZ, hqv, hQ0]
      rw [hqz, hQ0]
      simp
    · by_cases heq : a.sign = b.sign
      · have hqsign : q.sign = true := hqs.2 (Or.inl heq)
        rw [toZ_sign_true hqsign, hqv]
        rcases hsb : b.sign with _ | _
        · rw [toZ_sign_false hsb]
          rw [heq, hsb]
          simp only [if_neg (by simp : ¬(false = true))]
          push_cast
          ring
        · rw [toZ_sign_true hsb]
          rw [heq, hsb]
          simp only [if_pos rfl]
          push_cast
          ring
      · have hqsign : ¬q.sign = true := by
          intro hx
          rcases hqs.1 hx with h1 | h1
          · exact heq h1
          · exact hQ0 h1
        have hqsf : q.sign = false := by revert hqsign; cases q.sign <;> simp
        rw [toZ_sign_false hqsf, hqv]
        rcases hsb : b.sign with _ | _
        · have hsa : a.sign = true := by
            revert heq; rw [hsb]; cases a.sign <;> simp
          rw [toZ_sign_false hsb, hsa]
          simp only [if_pos rfl]
          push_cast
          ring
        · have hsa : a.sign = false := by
            revert heq; rw [hsb]; cases a.sign <;> simp
          rw [toZ_sign_true hsb, hsa]
          simp only [if_neg (by simp : ¬(false = true))]
          push_cast
          ring
  refine ⟨?_, rfl, hswf⟩
  show valNat (a.sub (q.mul b)).num = M
  have hcast : (valNat a.num : ℤ) = (V : ℤ) * Q + M := by exact_mod_cast hQM.symm
  have habs := natAbs_toZ (a.sub (q.mul b))
  rcases hsa : a.sign with _ | _
  · have hqbz2 : q.toZ * b.toZ = -((Q : ℤ) * V) := by
      rw [hqbz, hsa]
      norm_num
    rw [hsz, hqbz2, toZ_sign_false hsa] at habs
    have hX : (-(valNat a.num : ℤ) - -((Q : ℤ) * V)) = -(M : ℤ) := by
      rw [hcast]
      ring
    rw [hX] at habs
    simp only [Int.natAbs_neg, Int.natAbs_ofNat] at habs
    omega
  · have hqbz2 : q.toZ * b.toZ = (Q : ℤ) * V := by
      rw [hqbz, hsa]
      norm_num
    rw [hsz, hqbz2, toZ_sign_true hsa] at habs
    have hX : ((valNat a.num : ℤ) - (Q : ℤ) * V) = (M : ℤ) := by
      rw [hcast]
      ring
    rw [hX] at habs
    simp only [Int.natAbs_ofNat] at habs
    omega

/-! ### Euclid loop correctness -/

theorem gcdLoop_ok : ∀ (fuel : Nat) (a b : BigNum), a.wfB → b.wfB →
    a.sign = true → b.sign = true → valNat b.num < fuel →
    valNat (gcdLoop fuel a b).num = Nat.gcd (valNat b.num) (valNat a.num) ∧
    (gcdLoop fuel a b).sign = true ∧ (gcdLoop fuel a b).wfB := by
  intro fuel
  induction fuel with
  | zero => intro a b _ _ _ _ hlt; omega
  | succ f ih =>
    intro a b ha hb hsa hsb hlt
    simp only [gcdLoop]
    by_cases hz : b.isZero = true
    · rw [if_pos hz]
      have h0 : valNat b.num = 0 := isZero_iff_valNat.1 hz
      rw [h0, Nat.gcd_zero_left]
      exact ⟨rfl, hsa, ha⟩
    · rw [if_neg hz]
      have hbz : b.isZero = false := by revert hz; cases b.isZero <;> simp
      have hpos : 0 < valNat b.num := by
        rcases Nat.eq_zero_or_pos (valNat b.num) with h0 | h0
        · exact absurd (isZero_iff_valNat.2 h0) (by simp [hbz])
        · exact h0
      obtain ⟨hrv, hrs, hrwf⟩ := remCore_ok ⟨ha.1, ha.2.1⟩ hb hbz
      have hrec := ih b (a.remCore b) hb hrwf hsb (by rw [hrs, hsa])
        (by rw [hrv]; have := Nat.mod_lt (valNat a.num) hpos; omega)
      refine ⟨?_, hrec.2.1, hrec.2.2⟩
      rw [hrec.1, hrv, Nat.gcd_rec (valNat b.num) (valNat a.num)]

theorem gcd_ok {a b : BigNum} (ha : a.wfB) (hb : b.wfB)
    (h : ¬(a.isZero = true ∧ b.isZero = true)) :
    ∃ g, a.gcd b = Except.ok g ∧
      valNat g.num = Nat.gcd (valNat a.num) (valNat b.num) ∧
      g.sign = true ∧ g.wfB := by
  unfold BigNum.gcd
  rw [if_neg h]
  by_cases hza : a.isZero = true
  · rw [if_pos hza]
    refine ⟨b.abs, rfl, ?_, rfl, abs_wfB hb⟩
    rw [isZero_iff_valNat.1 hza, Nat.gcd_zero_left]
    rfl
  · rw [if_neg hza]
    by_cases hzb : b.isZero = true
    · rw [if_pos hzb]
      refine ⟨a.abs, rfl, ?_, rfl, abs_wfB ha⟩
      rw [isZero_iff_valNat.1 hzb, Nat.gcd_zero_right]
      rfl
    · rw [if_neg hzb]
      have hloop := gcdLoop_ok (valNat a.num + valNat b.num + 2) a.abs b.abs
        (abs_wfB ha) (abs_wfB hb) rfl rfl
        (by show valNat b.num < _; omega)
      refine ⟨_, rfl, ?_, hloop.2.1, hloop.2.2⟩
      rw [hloop.1]
      exact Nat.gcd_comm _ _

theorem gcd_ok2 {a b : BigNum} (ha : a.wfd) (hb : b.wfB) (hbz : b.isZero = false) :
    ∃ g, a.gcd b = Except.ok g ∧
      valNat g.num = Nat.gcd (valNat a.num) (valNat b.num) ∧
      g.sign = true ∧ g.wfB := by
  have hbpos : 0 < valNat b.num := by
    rcases Nat.eq_zero_or_pos (valNat b.num) with h0 | h0
    · exact absurd (isZero_iff_valNat.2 h0) (by simp [hbz])
    · exact h0
  unfold BigNum.gcd
  rw [if_neg (by intro hcon; rw [hcon.2] at hbz; simp at hbz)]
  by_cases hza : a.isZero = true
  · rw [if_pos hza]
    refine ⟨b.abs, rfl, ?_, rfl, abs_wfB hb⟩
    rw [isZero_iff_valNat.1 hza, Nat.gcd_zero_left]
    rfl
  · rw [if_neg hza]
    rw [if_neg (by simp [hbz])]
    have habsz : b.abs.isZero = false := hbz
    have hstep : valNat a.num + valNat b.num + 2 = (valNat a.num + valNat b.num + 1) + 1 := rfl
    have hunfold : ∀ (F : Nat) (x y : BigNum),
        gcdLoop (F + 1) x y = if y.isZero = true then x else gcdLoop F y (x.remCore y) :=
      fun F x y => rfl
    rw [hstep, hunfold]
    rw [if_neg (by simp [habsz])]
    obtain ⟨hrv, hrs, hrwf⟩ := remCore_ok (a := a.abs) (b := b.abs) ha (abs_wfB hb) habsz
    have hloop := gcdLoop_ok (valNat a.num + valNat b.num + 1) b.abs
      (a.abs.remCore b.abs) (abs_wfB hb) hrwf rfl (by rw [hrs]; rfl)
      (by
        rw [hrv]
        show valNat a.num % valNat b.num < _
        have := Nat.mod_lt (valNat a.num) hbpos
        omega)
    refine ⟨_, rfl, ?_, hloop.2.1, hloop.2.2⟩
    rw [hloop.1, hrv]
    show Nat.gcd (valNat a.num % valNat b.num) (valNat b.num) = _
    rw [← Nat.gcd_rec]
    exact Nat.gcd_comm _ _

/-! ### Fraction constructor correctness -/

theorem ok_bind {α β ε : Type} (a : α) (f : α → Except ε β) :
    (Except.ok a : Except ε α) >>= f = f a := rfl

theorem err_bind {α β ε : Type} (e : ε) (f : α → Except ε β) :
    (Except.error e : Except ε α) >>= f = Except.error e := rfl

theorem wf_val_zero {x : BigNum} (hx : x.wfB) : valNat x.num = 0 ↔ x.num = [0] := by
  constructor
  · intro hv
    cases hn : x.num with
    | nil => exact absurd hn hx.1
    | cons d t =>
      rw [hn, valNat_cons] at hv
      have hd : d = 0 := by
        have : 1 ≤ 10 ^ t.length := Nat.one_le_pow _ _ (by norm_num)
        nlinarith
      cases ht : t with
      | nil => rw [hd]
      | cons e r =>
        exfalso
        have := hx.2.2
        rw [hn, ht] at this
        exact (this (by simp)) (by simp [hd])
  · intro hv
    rw [hv]
    rfl

theorem wf_num_one {x : BigNum} (hx : x.wfB) (hv : valNat x.num = 1) :
    x.num = [1] := by
  cases hn : x.num with
  | nil => exact absurd hn hx.1
  | cons d t =>
    rw [hn, valNat_cons] at hv
    cases ht : t with
    | nil =>
      rw [ht] at hv
      simp [valNat] at hv
      rw [hv]
    | cons e r =>
      exfalso
      subst ht
      have hnl := hx.2.2
      rw [hn] at hnl
      have hd : d ≠ 0 := hnl (by simp)
      have h1 : 1 ≤ d := Nat.one_le_iff_ne_zero.2 hd
      have hpow : (10 : Nat) ≤ 10 ^ (e :: r).length := by
        calc (10 : Nat) = 10 ^ 1 := by norm_num
          _ ≤ 10 ^ (e :: r).length := Nat.pow_le_pow_right (by norm_num) (by simp)
      nlinarith

theorem wf_val_one {x : BigNum} (hx : x.wfB) (hs : x.sign = true)
    (hv : valNat x.num = 1) : x = ⟨true, [1]⟩ := by
  have hnum : x.num = [1] := wf_num_one hx hv
  cases x with
  | mk s l =>
    simp only at hnum hs
    rw [hnum, hs]

theorem divCore_exact {x g : BigNum} (hx : x.wfd) (hg : g.wfB) (hgs : g.sign = true)
    (hgz : g.isZero = false) (hdvd : valNat g.num ∣ valNat x.num) :
    (x.divCore g).toZ * (valNat g.num : ℤ) = x.toZ := by
  have hpos : 0 < valNat g.num := by
    rcases Nat.eq_zero_or_pos (valNat g.num) with h0 | h0
    · exact absurd (isZero_iff_valNat.2 h0) (by simp [hgz])
    · exact h0
  obtain ⟨hqv, hqwf, hqs⟩ := divCore_ok hx hg hgz
  have hmul : valNat x.num / valNat g.num * valNat g.num = valNat x.num :=
    Nat.div_mul_cancel hdvd
  have hc : ((valNat x.num / valNat g.num : Nat) : ℤ) * (valNat g.num : ℤ) =
      (valNat x.num : ℤ) := by exact_mod_cast hmul
  rcases hsx : x.sign with _ | _
  · by_cases hq0 : valNat x.num / valNat g.num = 0
    · have hx0 : valNat x.num = 0 := by
        rw [hq0, Nat.zero_mul] at hmul
        omega
      have hqz : (x.divCore g).toZ = 0 := by
        rw [← Int.natAbs_eq_zero, natAbs_toZ, hqv, hq0]
      rw [hqz, toZ_sign_false hsx, hx0]
      simp
    · have hsq : (x.divCore g).sign = false := by
        rcases hsp : (x.divCore g).sign with _ | _
        · rfl
        · exfalso
          rcases hqs.1 hsp with h1 | h1
          · rw [hsx, hgs] at h1; exact absurd h1 (by simp)
          · exact hq0 h1
      rw [toZ_sign_false hsq, toZ_sign_false hsx, hqv]
      linarith [hc]
  · have hsq : (x.divCore g).sign = true := hqs.2 (Or.inl (by rw [hsx, hgs]))
    rw [toZ_sign_true hsq, toZ_sign_true hsx, hqv]
    exact hc

/-- The invariant `Frac::new` establishes: well-formed parts, positive
denominator, fraction in lowest terms. -/
def Frac.inv (f : Frac) : Prop :=
  f.numerator.wfB ∧ f.denominator.wfB ∧ f.denominator.sign = true ∧
  f.denominator.isZero = false ∧
  Nat.gcd (valNat f.numerator.num) (valNat f.denominator.num) = 1

theorem new_ok {n d : BigNum} (hn : n.wfd) (hd : d.wfB) (hdz : d.isZero = false) :
    ∃ f, Frac.new? n d = Except.ok f ∧ Frac.inv f ∧
      f.numerator.toZ * d.toZ = n.toZ * f.denominator.toZ ∧
      valNat f.denominator.num =
        valNat d.num / Nat.gcd (valNat n.num) (valNat d.num) ∧
      valNat f.numerator.num =
        valNat n.num / Nat.gcd (valNat n.num) (valNat d.num) ∧
      (valNat n.num = 0 → f.denominator = ⟨true, [1]⟩) := by
  have hdpos : 0 < valNat d.num := by
    rcases Nat.eq_zero_or_pos (valNat d.num) with h0 | h0
    · exact absurd (isZero_iff_valNat.2 h0) (by simp [hdz])
    · exact h0
  obtain ⟨g, hgeq, hgv, hgs, hgwf⟩ := gcd_ok2 hn hd hdz
  set G := Nat.gcd (valNat n.num) (valNat d.num) with hG
  have hGpos : 0 < G := Nat.gcd_pos_of_pos_right _ hdpos
  have hgz : g.isZero = false := by
    rcases hzz : g.isZero with _ | _
    · rfl
    · exfalso
      rw [isZero_iff_valNat.1 hzz] at hgv
      omega
  have hdvdn : valNat g.num ∣ valNat n.num := by rw [hgv]; exact Nat.gcd_dvd_left _ _
  have hdvdd : valNat g.num ∣ valNat d.num := by rw [hgv]; exact Nat.gcd_dvd_right _ _
  obtain ⟨hn1v, hn1wf, hn1s⟩ := divCore_ok (a := n) (b := g) hn hgwf hgz
  obtain ⟨hd1v, hd1wf, hd1s⟩ := divCore_ok (a := d) (b := g) ⟨hd.1, hd.2.1⟩ hgwf hgz
  have hnex := divCore_exact (x := n) (g := g) hn hgwf hgs hgz hdvdn
  have hdex := divCore_exact (x := d) (g := g) ⟨hd.1, hd.2.1⟩ hgwf hgs hgz hdvdd
  rw [hgv] at hn1v hd1v hnex hdex
  have hd1pos : 0 < valNat (d.divCore g).num := by
    rw [hd1v]
    exact Nat.div_pos (Nat.le_of_dvd hdpos (by rw [← hgv]; exact hdvdd)) hGpos
  have hred : Nat.gcd (valNat (n.divCore g).num) (valNat (d.divCore g).num) = 1 := by
    rw [hn1v, hd1v]
    exact Nat.coprime_div_gcd_div_gcd hGpos
  have hstep : Frac.new? n d = Frac.simplify? ⟨n, d⟩ := by
    unfold Frac.new?
    rw [if_neg (by simp [hdz])]
  have hsimp : Frac.simplify? ⟨n, d⟩ =
      (if (d.divCore g).isNegative then
        Except.ok ⟨(n.divCore g).negate, (d.divCore g).negate⟩
      else Except.ok ⟨n.divCore g, d.divCore g⟩) := by
    unfold Frac.simplify?
    show (n.gcd d >>= fun gcd => _) = _
    rw [hgeq, ok_bind]
    show (n.div? g >>= fun numerator => _) = _
    rw [show n.div? g = Except.ok (n.divCore g) by unfold BigNum.div?; rw [if_neg (by simp [hgz])]]
    rw [ok_bind]
    show (d.div? g >>= fun denominator => _) = _
    rw [show d.div? g = Except.ok (d.divCore g) by unfold BigNum.div?; rw [if_neg (by simp [hgz])]]
    rw [ok_bind]
  by_cases hneg : (d.divCore g).isNegative = true
  · have hd1sf : (d.divCore g).sign = false := by
      unfold BigNum.isNegative at hneg
      simpa using hneg
    refine ⟨⟨(n.divCore g).negate, (d.divCore g).negate⟩, ?_, ?_, ?_, ?_, ?_, ?_⟩
    · rw [hstep, hsimp, if_pos hneg]
    · refine ⟨hn1wf, hd1wf, ?_, ?_, ?_⟩
      · show (!(d.divCore g).sign) = true
        rw [hd1sf]
        rfl
      · show isNumZero (d.divCore g).num = false
        rcases hzz : isNumZero (d.divCore g).num with _ | _
        · rfl
        · exfalso
          have := valNat_eq_zero_iff.2 hzz
          omega
      · exact hred
    · show (n.divCore g).negate.toZ * d.toZ = n.toZ * (d.divCore g).negate.toZ
      rw [toZ_negate, toZ_negate]
      have hGne : (G : ℤ) ≠ 0 := by exact_mod_cast Nat.pos_iff_ne_zero.1 hGpos
      apply mul_right_cancel₀ hGne
      linear_combination (-(d.toZ)) * hnex + n.toZ * hdex
    · exact hd1v
    · exact hn1v
    · intro hn0
      show (d.divCore g).negate = ⟨true, [1]⟩
      have hGd : G = valNat d.num := by
        rw [hG, hn0, Nat.gcd_zero_left]
      have hv1 : valNat (d.divCore g).num = 1 := by
        rw [hd1v, hGd]
        exact Nat.div_self hdpos
      have hnum1 : (d.divCore g).num = [1] := wf_num_one hd1wf hv1
      show (⟨!(d.divCore g).sign, (d.divCore g).num⟩ : BigNum) = ⟨true, [1]⟩
      rw [hd1sf, hnum1]
      rfl
  · have hd1st : (d.divCore g).sign = true := by
      unfold BigNum.isNegative at hneg
      rcases hzz : (d.divCore g).sign with _ | _
      · exfalso; apply hneg; simp [hzz]
      · rfl
    refine ⟨⟨n.divCore g, d.divCore g⟩, ?_, ?_, ?_, ?_, ?_, ?_⟩
    · rw [hstep, hsimp, if_neg hneg]
    · refine ⟨hn1wf, hd1wf, hd1st, ?_, hred⟩
      show isNumZero (d.divCore g).num = false
      rcases hzz : isNumZero (d.divCore g).num with _ | _
      · rfl
      · exfalso
        have := valNat_eq_zero_iff.2 hzz
        omega
    · show (n.divCore g).toZ * d.toZ = n.toZ * (d.divCore g).toZ
      have hGne : (G : ℤ) ≠ 0 := by exact_mod_cast Nat.pos_iff_ne_zero.1 hGpos
      apply mul_right_cancel₀ hGne
      linear_combination d.toZ * hnex + (-(n.toZ)) * hdex
    · exact hd1v
    · exact hn1v
    · intro hn0
      show d.divCore g = ⟨true, [1]⟩
      apply wf_val_one hd1wf hd1st
      have hGd : G = valNat d.num := by
        rw [hG, hn0, Nat.gcd_zero_left]
      rw [hd1v, hGd]
      exact Nat.div_self hdpos

/-! ### Bridging lemmas for the Value layer -/

theorem rem_eq {a b : BigNum} (hbz : b.isZero = false) :
    a.rem? b = Except.ok (a.remCore b) := by
  unfold BigNum.rem?
  rw [if_neg (by simp [hbz])]

theorem div_eq {a b : BigNum} (hbz : b.isZero = false) :
    a.div? b = Except.ok (a.divCore b) := by
  unfold BigNum.div?
  rw [if_neg (by simp [hbz])]

theorem zero_struct_iff {m : BigNum} (hm : m.wfB) :
    m = BigNum.zero ↔ (valNat m.num = 0 ∧ m.sign = true) := by
  constructor
  · intro h
    rw [h]
    exact ⟨rfl, rfl⟩
  · intro ⟨hv, hs⟩
    have hnum : m.num = [0] := (wf_val_zero hm).1 hv
    cases m with
    | mk s l =>
      simp only at hnum hs
      rw [hnum, hs]
      rfl

theorem simplify_number (n : BigNum) :
    Value.simplify (Value.Number n) = Value.Number n := rfl

theorem simplify_frac_eq (f : Frac) :
    Value.simplify (Value.Frac f) =
      if f.isBignum = true then Value.Number f.numerator else Value.Frac f := by
  unfold Value.simplify Frac.toBignum
  rcases h : f.isBignum with _ | _ <;> simp [h]

theorem isBignum_false_iff (f : Frac) :
    f.isBignum = false ↔
      ¬f.denominator = ⟨true, [1]⟩ ∧ f.numerator.isZero = false := by
  unfold Frac.isBignum
  rcases h1 : f.denominator == (⟨true, [1]⟩ : BigNum) with _ | _ <;>
    rcases h2 : f.numerator.isZero with _ | _ <;>
      simp_all <;> simp_all [beq_iff_eq]

theorem toZ_dvd_iff (a b : BigNum) :
    b.toZ ∣ a.toZ ↔ valNat b.num ∣ valNat a.num := by
  rw [← natAbs_toZ, ← natAbs_toZ, Int.natAbs_dvd_natAbs]

theorem divCore_mul_toZ {a b : BigNum} (ha : a.wfd) (hb : b.wfB)
    (hbz : b.isZero = false) :
    (a.divCore b).toZ * b.toZ =
      (if a.sign = true then (1 : ℤ) else -1) *
        ((valNat a.num / valNat b.num : Nat) : ℤ) * ((valNat b.num : Nat) : ℤ) := by
  obtain ⟨hqv, hqwf, hqs⟩ := divCore_ok ha hb hbz
  set q := a.divCore b with hq
  set V := valNat b.num with hV
  set Q := valNat a.num / V with hQdef
  by_cases hQ0 : Q = 0
  · have hqz : q.toZ = 0 := by
      rw [← Int.natAbs_eq_zero, natAbs_toZ, hqv, hQ0]
    rw [hqz, hQ0]
    simp
  · by_cases heq : a.sign = b.sign
    · have hqsign : q.sign = true := hqs.2 (Or.inl heq)
      rw [toZ_sign_true hqsign, hqv]
      rcases hsb : b.sign with _ | _
      · rw [toZ_sign_false hsb]
        rw [heq, hsb]
        simp only [if_neg (by simp : ¬(false = true))]
        push_cast
        ring
      · rw [toZ_sign_true hsb]
        rw [heq, hsb]
        simp only [if_pos rfl]
        push_cast
        ring
    · have hqsign : ¬q.sign = true := by
        intro hx
        rcases hqs.1 hx with h1 | h1
        · exact heq h1
        · exact hQ0 h1
      have hqsf : q.sign = false := by revert hqsign; cases q.sign <;> simp
      rw [toZ_sign_false hqsf, hqv]
      rcases hsb : b.sign with _ | _
      · have hsa : a.sign = true := by
          revert heq; rw [hsb]; cases a.sign <;> simp
        rw [toZ_sign_false hsb, hsa]
        simp only [if_pos rfl]
        push_cast
        ring
      · have hsa : a.sign = false := by
          revert heq; rw [hsb]; cases a.sign <;> simp
        rw [toZ_sign_true hsb, hsa]
        simp only [if_neg (by simp : ¬(false = true))]
        push_cast
        ring


/-! ### Structural well-formedness through division, gcd and the fraction
constructor (no value hypotheses: needed for arbitrary parsed input) -/

theorem divInner_struct {oth : BigNum} (ho : oth.wfd) :
    ∀ (fuel : Nat) (rem cnt : BigNum), rem.wfB → cnt.wfB →
      (divInner oth fuel rem cnt).1.wfB ∧ (divInner oth fuel rem cnt).2.wfB := by
  intro fuel
  induction fuel with
  | zero => intro rem cnt h1 h2; exact ⟨h1, h2⟩
  | succ f ih =>
    intro rem cnt h1 h2
    simp only [divInner]
    by_cases hcond : cmpB rem oth ≠ Ordering.lt
    · rw [if_pos hcond]
      exact ih _ _ (sub_wfB ⟨h1.1, h1.2.1⟩ ho)
        (add_wfB ⟨h2.1, h2.2.1⟩ (by constructor <;> decide))
    · rw [if_neg hcond]
      exact ⟨h1, h2⟩

theorem divFold_struct {oth : BigNum} (ho : oth.wfd) :
    ∀ (digits : List Nat) (rem res : BigNum), dval digits → rem.wfB → res.wfB →
      (divFold oth digits rem res).1.wfB ∧ (divFold oth digits rem res).2.wfB := by
  intro digits
  induction digits with
  | nil => intro rem res _ h1 h2; exact ⟨h1, h2⟩
  | cons d rest ih =>
    intro rem res hdig h1 h2
    have hd10 : d < 10 := hdig d (by simp)
    simp only [divFold]
    have hten : dvalTen (BigNum.fromVec [10] true).num := by decide
    have hrem1 : ((rem.mul (BigNum.fromVec [10] true)).add (BigNum.fromVec [d] true)).wfB := by
      have hm := mul_wfB h1.2.1 hten
      exact add_wfB ⟨hm.1, hm.2.1⟩
        ⟨fromVec_ne_nil _ _, fromVec_dval (by intro x hx; simp at hx; omega) _⟩
    have hdi := divInner_struct ho
      (valNat ((rem.mul (BigNum.fromVec [10] true)).add (BigNum.fromVec [d] true)).num + 1)
      ((rem.mul (BigNum.fromVec [10] true)).add (BigNum.fromVec [d] true))
      BigNum.zero hrem1 zero_wfB
    have hres2 : ((res.mul (BigNum.fromVec [10] true)).add
        (divInner oth
          (valNat ((rem.mul (BigNum.fromVec [10] true)).add (BigNum.fromVec [d] true)).num + 1)
          ((rem.mul (BigNum.fromVec [10] true)).add (BigNum.fromVec [d] true))
          BigNum.zero).2).wfB := by
      have hm := mul_wfB h2.2.1 hten
      exact add_wfB ⟨hm.1, hm.2.1⟩ ⟨hdi.2.1, hdi.2.2.1⟩
    exact ih _ _ (fun x hx => hdig x (by simp [hx])) hdi.1 hres2

theorem divCore_struct {a b : BigNum} (ha : dval a.num) (hb : b.wfd) :
    (a.divCore b).wfB := by
  unfold BigNum.divCore
  by_cases hz : a.isZero = true
  · rw [if_pos hz]
    exact zero_wfB
  · rw [if_neg hz]
    have hf := @divFold_struct b.abs hb a.abs.num BigNum.zero BigNum.zero
      ha zero_wfB zero_wfB
    by_cases hc : a.sign ≠ b.sign ∧ ¬(divFold b.abs a.abs.num BigNum.zero BigNum.zero).2.isZero = true
    · rw [if_pos hc]
      exact ⟨hf.2.1, hf.2.2.1, hf.2.2.2⟩
    · rw [if_neg hc]
      exact ⟨hf.2.1, hf.2.2.1, hf.2.2.2⟩

theorem remCore_struct {a b : BigNum} (ha : a.wfd) (hb : b.wfd) :
    (a.remCore b).wfB := by
  unfold BigNum.remCore
  have hq : (a.divCore b).wfB := divCore_struct ha.2 hb
  have hm : ((a.divCore b).mul b).wfB := mul_wfB hq.2.1 (dval_dvalTen hb.2)
  have hs : (a.sub ((a.divCore b).mul b)).wfB := sub_wfB ha ⟨hm.1, hm.2.1⟩
  exact ⟨hs.1, hs.2.1, hs.2.2⟩

theorem gcdLoop_struct : ∀ (fuel : Nat) (a b : BigNum), a.wfd → b.wfd →
    (gcdLoop fuel a b).wfd := by
  intro fuel
  induction fuel with
  | zero => intro a b h1 _; exact h1
  | succ f ih =>
    intro a b h1 h2
    simp only [gcdLoop]
    by_cases hz : b.isZero = true
    · rw [if_pos hz]; exact h1
    · rw [if_neg hz]
      have := remCore_struct h1 h2
      exact ih _ _ h2 ⟨this.1, this.2.1⟩

theorem gcd_struct {a b g : BigNum} (ha : a.wfd) (hb : b.wfd)
    (h : a.gcd b = Except.ok g) : g.wfd := by
  unfold BigNum.gcd at h
  by_cases hzz : a.isZero = true ∧ b.isZero = true
  · rw [if_pos hzz] at h
    exact absurd h (by simp)
  · rw [if_neg hzz] at h
    by_cases hza : a.isZero = true
    · rw [if_pos hza] at h
      injection h with h
      rw [← h]
      exact hb
    · rw [if_neg hza] at h
      by_cases hzb : b.isZero = true
      · rw [if_pos hzb] at h
        injection h with h
        rw [← h]
        exact ha
      · rw [if_neg hzb] at h
        injection h with h
        rw [← h]
        exact gcdLoop_struct _ _ _ ha hb

theorem simplify_struct {f0 f : Frac} (hn : f0.numerator.wfd)
    (hd : f0.denominator.wfd) (h : Frac.simplify? f0 = Except.ok f) :
    f.numerator.wfB ∧ f.denominator.wfB ∧ f.denominator.sign = true := by
  unfold Frac.simplify? at h
  cases hg : f0.numerator.gcd f0.denominator with
  | error e => rw [hg, err_bind] at h; exact absurd h (by simp)
  | ok g =>
    rw [hg, ok_bind] at h
    have hgwfd : g.wfd := gcd_struct hn hd hg
    by_cases hgz : g.isZero = true
    · rw [show f0.numerator.div? g = Except.error "Division by zero" by
        unfold BigNum.div?; rw [if_pos hgz], err_bind] at h
      exact absurd h (by simp)
    · have hgz' : g.isZero = false := by revert hgz; cases g.isZero <;> simp
      rw [div_eq hgz', ok_bind, div_eq hgz', ok_bind] at h
      have hn1 : (f0.numerator.divCore g).wfB := divCore_struct hn.2 hgwfd
      have hd1 : (f0.denominator.divCore g).wfB := divCore_struct hd.2 hgwfd
      by_cases hneg : (f0.denominator.divCore g).isNegative = true
      · rw [if_pos hneg] at h
        injection h with h
        rw [← h]
        refine ⟨hn1, hd1, ?_⟩
        show (!(f0.denominator.divCore g).sign) = true
        have : (f0.denominator.divCore g).sign = false := by
          revert hneg
          unfold BigNum.isNegative
          cases (f0.denominator.divCore g).sign <;> simp
        rw [this]
        rfl
      · rw [if_neg hneg] at h
        injection h with h
        rw [← h]
        refine ⟨hn1, hd1, ?_⟩
        revert hneg
        unfold BigNum.isNegative
        cases (f0.denominator.divCore g).sign <;> simp

theorem new_struct {n d : BigNum} {f : Frac} (hn : n.wfd) (hd : d.wfd)
    (h : Frac.new? n d = Except.ok f) :
    f.numerator.wfB ∧ f.denominator.wfB ∧ f.denominator.sign = true := by
  unfold Frac.new? at h
  by_cases hz : d.isZero = true
  · rw [if_pos hz] at h
    exact absurd h (by simp)
  · rw [if_neg hz] at h
    exact simplify_struct hn hd h

/-! ### Parsing: characterizing `BigNum.fromStr` -/

/-- The per-character step of `FromStr for BigNum` (named for the proofs;
`BigNum.fromStr` uses the same function as a literal lambda). -/
def digitParse (c : Char) : Except String Nat :=
  if c.isDigit then Except.ok (digitVal c)
  else Except.error ("Invalid character: " ++ toString c)

theorem fromStr_eq (s : List Char) :
    BigNum.fromStr s =
      match (stripSign s).2.mapM digitParse with
      | .error e => .error e
      | .ok digits =>
        if digits.isEmpty then .error "Invalid number format"
        else .ok ⟨(stripSign s).1, digits⟩ := rfl

theorem digitParse_okc {c : Char} (h : c.isDigit = true) :
    digitParse c = Except.ok (digitVal c) := by
  unfold digitParse
  rw [if_pos h]

theorem digitParse_errc {c : Char} (h : c.isDigit = false) :
    digitParse c = Except.error ("Invalid character: " ++ toString c) := by
  unfold digitParse
  rw [if_neg (by simp [h])]

theorem digitVal_lt {c : Char} (h : c.isDigit = true) : digitVal c < 10 := by
  unfold digitVal
  simp [Char.isDigit] at h
  obtain ⟨h1, h2⟩ := h
  have h2' : c.toNat ≤ '9'.toNat := h2
  have h1' : '0'.toNat ≤ c.toNat := h1
  have e9 : '9'.toNat = 57 := rfl
  have e0 : '0'.toNat = 48 := rfl
  omega

theorem mapM_digitParse_nil : ([] : List Char).mapM digitParse = Except.ok [] := rfl

theorem mapM_digitParse_cons (c : Char) (t : List Char) :
    (c :: t).mapM digitParse =
      digitParse c >>= fun x => t.mapM digitParse >>= fun xs => Except.ok (x :: xs) := by
  rw [List.mapM_cons]
  rfl

theorem mapM_digitParse_ok : ∀ {cs : List Char} {ds : List Nat},
    cs.mapM digitParse = Except.ok ds →
    ds = cs.map digitVal ∧ ∀ c ∈ cs, c.isDigit = true := by
  intro cs
  induction cs with
  | nil =>
    intro ds h
    have h' : Except.ok ([] : List Nat) = (Except.ok ds : Except String (List Nat)) := h
    injection h' with h'
    exact ⟨h'.symm, by simp⟩
  | cons c t ih =>
    intro ds h
    rw [mapM_digitParse_cons] at h
    by_cases hc : c.isDigit = true
    · rw [digitParse_okc hc, ok_bind] at h
      cases ht : t.mapM digitParse with
      | error e => rw [ht, err_bind] at h; exact absurd h (by simp)
      | ok tds =>
        rw [ht, ok_bind] at h
        injection h with h
        obtain ⟨h1, h2⟩ := ih ht
        refine ⟨?_, ?_⟩
        · rw [← h, h1, List.map_cons]
        · intro x hx
          rcases List.mem_cons.1 hx with hx | hx
          · rw [hx]; exact hc
          · exact h2 x hx
    · rw [digitParse_errc (by revert hc; cases c.isDigit <;> simp), err_bind] at h
      exact absurd h (by simp)

theorem mapM_digitParse_complete : ∀ (cs : List Char),
    (∀ c ∈ cs, c.isDigit = true) →
    cs.mapM digitParse = Except.ok (cs.map digitVal) := by
  intro cs
  induction cs with
  | nil => intro _; rfl
  | cons c t ih =>
    intro h
    rw [mapM_digitParse_cons, digitParse_okc (h c (by simp)), ok_bind,
      ih (fun x hx => h x (by simp [hx])), ok_bind, List.map_cons]

theorem mapM_digitParse_err : ∀ (pre : List Char) (c : Char) (suf : List Char),
    (∀ x ∈ pre, x.isDigit = true) → c.isDigit = false →
    (pre ++ c :: suf).mapM digitParse =
      Except.error ("Invalid character: " ++ toString c) := by
  intro pre
  induction pre with
  | nil =>
    intro c suf _ hc
    rw [List.nil_append, mapM_digitParse_cons, digitParse_errc hc, err_bind]
  | cons p t ih =>
    intro c suf hpre hc
    rw [List.cons_append, mapM_digitParse_cons, digitParse_okc (hpre p (by simp)),
      ok_bind, ih c suf (fun x hx => hpre x (by simp [hx])) hc, err_bind]

theorem fromStr_ok_digits {s : List Char}
    (h1 : ∀ c ∈ (stripSign s).2, c.isDigit = true)
    (h2 : (stripSign s).2 ≠ []) :
    BigNum.fromStr s =
      Except.ok ⟨(stripSign s).1, (stripSign s).2.map digitVal⟩ := by
  rw [fromStr_eq, mapM_digitParse_complete _ h1]
  have hne : ((stripSign s).2.map digitVal).isEmpty = false := by
    cases h : (stripSign s).2 with
    | nil => exact absurd h h2
    | cons a t => rfl
  show (if ((stripSign s).2.map digitVal).isEmpty then
      Except.error "Invalid number format"
    else Except.ok ⟨(stripSign s).1, (stripSign s).2.map digitVal⟩ :
      Except String BigNum) = _
  rw [if_neg (by simp [hne])]

theorem fromStr_err_empty {s : List Char} (h : (stripSign s).2 = []) :
    BigNum.fromStr s = Except.error "Invalid number format" := by
  rw [fromStr_eq, h]
  rfl

theorem fromStr_err_char {s pre : List Char} {c : Char} {suf : List Char}
    (hsp : (stripSign s).2 = pre ++ c :: suf)
    (hpre : ∀ x ∈ pre, x.isDigit = true) (hc : c.isDigit = false) :
    BigNum.fromStr s = Except.error ("Invalid character: " ++ toString c) := by
  rw [fromStr_eq, hsp, mapM_digitParse_err pre c suf hpre hc]

theorem fromStr_wfd {s : List Char} {b : BigNum}
    (h : BigNum.fromStr s = Except.ok b) : b.wfd := by
  rw [fromStr_eq] at h
  cases hm : (stripSign s).2.mapM digitParse with
  | error e => rw [hm] at h; exact absurd h (by simp)
  | ok ds =>
    rw [hm] at h
    replace h : (if ds.isEmpty then Except.error "Invalid number format"
      else Except.ok ⟨(stripSign s).1, ds⟩) = Except.ok b := h
    by_cases he : ds.isEmpty = true
    · rw [if_pos he] at h; exact absurd h (by simp)
    · rw [if_neg he] at h
      injection h with h
      obtain ⟨hds, hall⟩ := mapM_digitParse_ok hm
      rw [← h]
      refine ⟨?_, ?_⟩
      · show ds ≠ []
        intro hnil
        rw [hnil] at he
        exact he rfl
      · show dval ds
        rw [hds]
        intro d hd
        obtain ⟨c, hc, hcd⟩ := List.mem_map.1 hd
        rw [← hcd]
        exact digitVal_lt (hall c hc)

/-! ### The NumericValue invariant of the spec -/

/-- The spec's NumericValue invariant: any `Frac` variant has denominator
different from one and numerator different from zero. -/
def NvInv : Value → Prop
  | .Number _ => True
  | .Frac f => f.denominator.toZ ≠ 1 ∧ f.numerator.toZ ≠ 0

instance : (v : Value) → Decidable (NvInv v)
  | .Number _ => isTrue trivial
  | .Frac f =>
    inferInstanceAs (Decidable (f.denominator.toZ ≠ 1 ∧ f.numerator.toZ ≠ 0))

/-- Reachable-value hypothesis: a `Number` holds a digit vector of decimal
digits; a `Frac` satisfies the constructor invariant and is not exactly
integral. -/
def VH : Value → Prop
  | .Number n => n.wfd
  | .Frac f => Frac.inv f ∧ f.isBignum = false

instance : (f : Frac) → Decidable f.inv := fun f => by
  unfold Frac.inv
  infer_instance

instance : (v : Value) → Decidable (VH v)
  | .Number n => inferInstanceAs (Decidable n.wfd)
  | .Frac f => inferInstanceAs (Decidable (Frac.inv f ∧ f.isBignum = false))

theorem wfB_wfd {a : BigNum} (h : a.wfB) : a.wfd := ⟨h.1, h.2.1⟩

theorem mul_wfd {a b : BigNum} (ha : a.wfd) (hb : b.wfd) : (a.mul b).wfd :=
  wfB_wfd (mul_wfB ha.2 (dval_dvalTen hb.2))

/-- Structural facts about every `Frac` leaving the constructor. -/
def SOut (f : Frac) : Prop :=
  f.numerator.wfB ∧ f.denominator.wfB ∧ f.denominator.sign = true

/-- Structural facts needed of a `Frac` entering an arithmetic
operation. -/
def FWf (f : Frac) : Prop := f.numerator.wfd ∧ f.denominator.wfd

theorem sout_fwf {f : Frac} (h : SOut f) : FWf f :=
  ⟨wfB_wfd h.1, wfB_wfd h.2.1⟩

theorem new_sout {n d : BigNum} {f : Frac} (hn : n.wfd) (hd : d.wfd)
    (h : Frac.new? n d = Except.ok f) : SOut f := new_struct hn hd h

theorem fadd_sout {a b f : Frac} (ha : FWf a) (hb : FWf b)
    (h : a.fadd? b = Except.ok f) : SOut f := by
  unfold Frac.fadd? at h
  exact new_sout
    (wfB_wfd (add_wfB (mul_wfd ha.1 hb.2) (mul_wfd ha.2 hb.1)))
    (mul_wfd ha.2 hb.2) h

theorem fneg_sout {a f : Frac} (ha : FWf a) (h : a.fneg? = Except.ok f) :
    SOut f := by
  unfold Frac.fneg? at h
  exact new_sout (show a.numerator.negate.wfd from ha.1) ha.2 h

theorem finverse_sout {a f : Frac} (ha : FWf a)
    (h : a.finverse? = Except.ok f) : SOut f := by
  unfold Frac.finverse? at h
  exact new_sout ha.2 ha.1 h

theorem fmul_sout {a b f : Frac} (ha : FWf a) (hb : FWf b)
    (h : a.fmul? b = Except.ok f) : SOut f := by
  unfold Frac.fmul? at h
  exact new_sout (mul_wfd ha.1 hb.1) (mul_wfd ha.2 hb.2) h

theorem toFrac_sout {n : BigNum} {f : Frac} (hn : n.wfd)
    (h : n.toFrac? = Except.ok f) : SOut f := by
  unfold BigNum.toFrac? at h
  exact new_sout hn (by decide) h

theorem faddB_sout {a : Frac} {n : BigNum} {f : Frac} (ha : FWf a)
    (hn : n.wfd) (h : a.faddB? n = Except.ok f) : SOut f := by
  unfold Frac.faddB? at h
  cases hg : n.toFrac? with
  | error e => rw [hg, err_bind] at h; exact absurd h (by simp)
  | ok g =>
    rw [hg, ok_bind] at h
    exact fadd_sout ha (sout_fwf (toFrac_sout hn hg)) h

theorem fsub_sout {a b f : Frac} (ha : FWf a) (hb : FWf b)
    (h : a.fsub? b = Except.ok f) : SOut f := by
  unfold Frac.fsub? at h
  cases hg : b.fneg? with
  | error e => rw [hg, err_bind] at h; exact absurd h (by simp)
  | ok g =>
    rw [hg, ok_bind] at h
    exact fadd_sout ha (sout_fwf (fneg_sout hb hg)) h

theorem fsubB_sout {a : Frac} {n : BigNum} {f : Frac} (ha : FWf a)
    (hn : n.wfd) (h : a.fsubB? n = Except.ok f) : SOut f := by
  unfold Frac.fsubB? at h
  cases hg : n.toFrac? with
  | error e => rw [hg, err_bind] at h; exact absurd h (by simp)
  | ok g =>
    rw [hg, ok_bind] at h
    exact fsub_sout ha (sout_fwf (toFrac_sout hn hg)) h

theorem fmulB_sout {a : Frac} {n : BigNum} {f : Frac} (ha : FWf a)
    (hn : n.wfd) (h : a.fmulB? n = Except.ok f) : SOut f := by
  unfold Frac.fmulB? at h
  cases hg : n.toFrac? with
  | error e => rw [hg, err_bind] at h; exact absurd h (by simp)
  | ok g =>
    rw [hg, ok_bind] at h
    exact fmul_sout ha (sout_fwf (toFrac_sout hn hg)) h

theorem fdiv_sout {a b f : Frac} (ha : FWf a) (hb : FWf b)
    (h : a.fdiv? b = Except.ok f) : SOut f := by
  unfold Frac.fdiv? at h
  cases hg : b.finverse? with
  | error e => rw [hg, err_bind] at h; exact absurd h (by simp)
  | ok g =>
    rw [hg, ok_bind] at h
    exact fmul_sout ha (sout_fwf (finverse_sout hb hg)) h

theorem fdivB_sout {a : Frac} {n : BigNum} {f : Frac} (ha : FWf a)
    (hn : n.wfd) (h : a.fdivB? n = Except.ok f) : SOut f := by
  unfold Frac.fdivB? at h
  cases hg : n.toFrac? with
  | error e => rw [hg, err_bind] at h; exact absurd h (by simp)
  | ok g =>
    rw [hg, ok_bind] at h
    exact fdiv_sout ha (sout_fwf (toFrac_sout hn hg)) h

theorem nvinv_of_simplify {f : Frac} (hd : f.denominator.wfB)
    (hds : f.denominator.sign = true) :
    NvInv (Value.simplify (Value.Frac f)) := by
  rw [simplify_frac_eq]
  rcases hb : f.isBignum with _ | _
  · rw [if_neg (by simp [hb])]
    obtain ⟨hne1, hnez⟩ := (isBignum_false_iff f).1 hb
    refine ⟨?_, ?_⟩
    · intro h1
      apply hne1
      apply wf_val_one hd hds
      rw [toZ_sign_true hds] at h1
      exact_mod_cast h1
    · intro h0
      have := toZ_eq_zero_iff.1 h0
      rw [this] at hnez
      exact absurd hnez (by simp)
  · rw [if_pos (by simp [hb])]
    trivial

theorem nvinv_of_bindF {e : Except String Frac} {w : Value}
    (hs : ∀ g, e = Except.ok g →
      g.denominator.wfB ∧ g.denominator.sign = true)
    (h : (e >>= fun x => Except.ok (Value.simplify (Value.Frac x))) =
      Except.ok w) :
    NvInv w := by
  cases he : e with
  | error err => rw [he, err_bind] at h; exact absurd h (by simp)
  | ok g =>
    rw [he, ok_bind] at h
    injection h with h
    rw [← h]
    obtain ⟨h1, h2⟩ := hs g he
    exact nvinv_of_simplify h1 h2

theorem fneg_nvinv {f g : Frac} (hf : Frac.inv f) (hb : f.isBignum = false)
    (h : f.fneg? = Except.ok g) : NvInv (Value.Frac g) := by
  obtain ⟨hne1, hnez⟩ := (isBignum_false_iff f).1 hb
  have hnwf : f.numerator.wfB := hf.1
  have hdwf : f.denominator.wfB := hf.2.1
  have hds : f.denominator.sign = true := hf.2.2.1
  have hdz : f.denominator.isZero = false := hf.2.2.2.1
  have hgcd :
      Nat.gcd (valNat f.numerator.num) (valNat f.denominator.num) = 1 :=
    hf.2.2.2.2
  unfold Frac.fneg? at h
  obtain ⟨g', hg'eq, hg'inv, hcross, hdval, hnval, hzero⟩ :=
    new_ok (n := f.numerator.negate) (d := f.denominator)
      (show f.numerator.negate.wfd from wfB_wfd hnwf) hdwf hdz
  rw [hg'eq] at h
  injection h with h
  rw [← h]
  refine ⟨?_, ?_⟩
  · intro h1
    apply hne1
    apply wf_val_one hdwf hds
    have hs' : g'.denominator.sign = true := hg'inv.2.2.1
    rw [toZ_sign_true hs'] at h1
    have h1' : valNat g'.denominator.num = 1 := by exact_mod_cast h1
    have hsame : valNat f.numerator.negate.num = valNat f.numerator.num := rfl
    rw [hsame, hgcd, Nat.div_one] at hdval
    rw [← hdval]
    exact h1'
  · intro h0
    rw [h0, zero_mul, toZ_negate] at hcross
    have hnum0 : f.numerator.toZ ≠ 0 := by
      intro hx
      rw [toZ_eq_zero_iff.1 hx] at hnez
      exact absurd hnez (by simp)
    have hden'0 : g'.denominator.toZ ≠ 0 := by
      intro hx
      have hz2 : g'.denominator.isZero = false := hg'inv.2.2.2.1
      rw [toZ_eq_zero_iff.1 hx] at hz2
      exact absurd hz2 (by simp)
    exact mul_ne_zero (neg_ne_zero.mpr hnum0) hden'0 hcross.symm

theorem fracFromStr_sout {s : List Char} {f : Frac}
    (h : Frac.fromStr s = Except.ok f) : SOut f := by
  unfold Frac.fromStr at h
  rcases hsp : splitSlash s with _ | ⟨p1, _ | ⟨p2, _ | ⟨p3, ps⟩⟩⟩ <;>
    rw [hsp] at h
  · exact absurd h (by simp)
  · exact absurd h (by simp)
  · replace h : (match BigNum.fromStr p1 with
      | .error e => .error e
      | .ok numerator =>
        match BigNum.fromStr p2 with
        | .error e => .error e
        | .ok denominator =>
          if denominator.isZero then
            Except.error "Denominator cannot be zero"
          else Frac.new? numerator denominator) = Except.ok f := h
    cases hn : BigNum.fromStr p1 with
    | error e => rw [hn] at h; exact absurd h (by simp)
    | ok numerator =>
      rw [hn] at h
      cases hd : BigNum.fromStr p2 with
      | error e => rw [hd] at h; exact absurd h (by simp)
      | ok denominator =>
        rw [hd] at h
        replace h : (if denominator.isZero then
            Except.error "Denominator cannot be zero"
          else Frac.new? numerator denominator) = Except.ok f := h
        by_cases hz : denominator.isZero = true
        · rw [if_pos hz] at h; exact absurd h (by simp)
        · rw [if_neg hz] at h
          exact new_sout (fromStr_wfd hn) (fromStr_wfd hd) h
  · exact absurd h (by simp)

theorem sout_dh {f : Frac} (h : SOut f) :
    f.denominator.wfB ∧ f.denominator.sign = true := ⟨h.2.1, h.2.2⟩

theorem vh_fwf {f : Frac} (h : VH (Value.Frac f)) : FWf f :=
  ⟨wfB_wfd h.1.1, wfB_wfd h.1.2.1⟩

/-! ### Claim theorems -/

/-- C7: every NumericValue produced by literal parsing or by any
arithmetic operation (negation, addition, subtraction, multiplication,
division) satisfies the invariant that a `Frac` variant has denominator ≠ 1
and numerator ≠ 0; exactly-integral fractions collapse to the `Number`
variant (`Value.simplify` is applied on every fraction-producing path
except negation, which cannot create an integral fraction from a
non-integral one). -/
theorem claim_C7 :
    (∀ (s : List Char) (v : Value), Value.fromStr? s = some v → NvInv v) ∧
    (∀ v w, VH v → Value.vneg? v = Except.ok w → NvInv w) ∧
    (∀ u v w, VH u → VH v → Value.vadd? u v = Except.ok w → NvInv w) ∧
    (∀ u v w, VH u → VH v → Value.vsub? u v = Except.ok w → NvInv w) ∧
    (∀ u v w, VH u → VH v → Value.vmul? u v = Except.ok w → NvInv w) ∧
    (∀ u v w, VH u → VH v → Value.vdiv? u v = Except.ok w → NvInv w) := by
  refine ⟨?_, ?_, ?_, ?_, ?_, ?_⟩
  · intro s v h
    unfold Value.fromStr? at h
    cases hn : BigNum.fromStr s with
    | ok n =>
      rw [hn] at h
      replace h : some (Value.simplify (Value.Number n)) = some v := h
      injection h with h
      rw [← h, simplify_number]
      trivial
    | error e =>
      rw [hn] at h
      replace h : (match Frac.fromStr s with
        | .ok f => some (Value.simplify (Value.Frac f))
        | .error _ => none) = some v := h
      cases hf : Frac.fromStr s with
      | ok f =>
        rw [hf] at h
        replace h : some (Value.simplify (Value.Frac f)) = some v := h
        injection h with h
        rw [← h]
        obtain ⟨h2, h3⟩ := sout_dh (fracFromStr_sout hf)
        exact nvinv_of_simplify h2 h3
      | error e2 =>
        rw [hf] at h
        exact absurd h (by simp)
  · intro v w hv h
    cases v with
    | Number n =>
      replace h : Except.ok (Value.Number n.negate) = Except.ok w := h
      injection h with h
      rw [← h]
      trivial
    | Frac f =>
      replace h : (f.fneg? >>= fun x => Except.ok (Value.Frac x)) =
        Except.ok w := h
      cases hg : f.fneg? with
      | error e => rw [hg, err_bind] at h; exact absurd h (by simp)
      | ok g =>
        rw [hg, ok_bind] at h
        injection h with h
        rw [← h]
        exact fneg_nvinv hv.1 hv.2 hg
  · intro u v w hu hv h
    cases u with
    | Number l =>
      cases v with
      | Number r =>
        replace h : Except.ok (Value.simplify (Value.Number (l.add r))) =
          Except.ok w := h
        injection h with h
        rw [← h, simplify_number]
        trivial
      | Frac f =>
        replace h : (f.faddB? l >>=
          fun x => Except.ok (Value.simplify (Value.Frac x))) =
            Except.ok w := h
        exact nvinv_of_bindF
          (fun g hg => sout_dh (faddB_sout (vh_fwf hv) hu hg)) h
    | Frac f =>
      cases v with
      | Number n =>
        replace h : (f.faddB? n >>=
          fun x => Except.ok (Value.simplify (Value.Frac x))) =
            Except.ok w := h
        exact nvinv_of_bindF
          (fun g hg => sout_dh (faddB_sout (vh_fwf hu) hv hg)) h
      | Frac r =>
        replace h : (f.fadd? r >>=
          fun x => Except.ok (Value.simplify (Value.Frac x))) =
            Except.ok w := h
        exact nvinv_of_bindF
          (fun g hg => sout_dh (fadd_sout (vh_fwf hu) (vh_fwf hv) hg)) h
  · intro u v w hu hv h
    cases u with
    | Number l =>
      cases v with
      | Number r =>
        replace h : Except.ok (Value.simplify (Value.Number (l.sub r))) =
          Except.ok w := h
        injection h with h
        rw [← h, simplify_number]
        trivial
      | Frac f =>
        replace h : (f.fsubB? l >>=
          fun x => Except.ok (Value.simplify (Value.Frac x))) =
            Except.ok w := h
        exact nvinv_of_bindF
          (fun g hg => sout_dh (fsubB_sout (vh_fwf hv) hu hg)) h
    | Frac f =>
      cases v with
      | Number n =>
        replace h : (f.fsubB? n >>=
          fun x => Except.ok (Value.simplify (Value.Frac x))) =
            Except.ok w := h
        exact nvinv_of_bindF
          (fun g hg => sout_dh (fsubB_sout (vh_fwf hu) hv hg)) h
      | Frac r =>
        replace h : (f.fsub? r >>=
          fun x => Except.ok (Value.simplify (Value.Frac x))) =
            Except.ok w := h
        exact nvinv_of_bindF
          (fun g hg => sout_dh (fsub_sout (vh_fwf hu) (vh_fwf hv) hg)) h
  · intro u v w hu hv h
    cases u with
    | Number l =>
      cases v with
      | Number r =>
        replace h : Except.ok (Value.simplify (Value.Number (l.mul r))) =
          Except.ok w := h
        injection h with h
        rw [← h, simplify_number]
        trivial
      | Frac f =>
        replace h : (f.fmulB? l >>=
          fun x => Except.ok (Value.simplify (Value.Frac x))) =
            Except.ok w := h
        exact nvinv_of_bindF
          (fun g hg => sout_dh (fmulB_sout (vh_fwf hv) hu hg)) h
    | Frac f =>
      cases v with
      | Number n =>
        replace h : (f.fmulB? n >>=
          fun x => Except.ok (Value.simplify (Value.Frac x))) =
            Except.ok w := h
        exact nvinv_of_bindF
          (fun g hg => sout_dh (fmulB_sout (vh_fwf hu) hv hg)) h
      | Frac r =>
        replace h : (f.fmul? r >>=
          fun x => Except.ok (Value.simplify (Value.Frac x))) =
            Except.ok w := h
        exact nvinv_of_bindF
          (fun g hg => sout_dh (fmul_sout (vh_fwf hu) (vh_fwf hv) hg)) h
  · intro u v w hu hv h
    cases u with
    | Number l =>
      cases v with
      | Number r =>
        replace h : (l.rem? r >>= fun m =>
          if m = BigNum.zero then
            l.div? r >>= fun q => Except.ok (Value.simplify (Value.Number q))
          else
            Frac.new? l r >>=
              fun x => Except.ok (Value.simplify (Value.Frac x))) =
          Except.ok w := h
        cases hm : l.rem? r with
        | error e => rw [hm, err_bind] at h; exact absurd h (by simp)
        | ok m =>
          rw [hm, ok_bind] at h
          by_cases hz : m = BigNum.zero
          · rw [if_pos hz] at h
            cases hq : l.div? r with
            | error e => rw [hq, err_bind] at h; exact absurd h (by simp)
            | ok q =>
              rw [hq, ok_bind] at h
              injection h with h
              rw [← h, simplify_number]
              trivial
          · rw [if_neg hz] at h
            exact nvinv_of_bindF
              (fun g hg => sout_dh (new_sout hu hv hg)) h
      | Frac f =>
        replace h : (f.fdivB? l >>=
          fun x => Except.ok (Value.simplify (Value.Frac x))) =
            Except.ok w := h
        exact nvinv_of_bindF
          (fun g hg => sout_dh (fdivB_sout (vh_fwf hv) hu hg)) h
    | Frac f =>
      cases v with
      | Number n =>
        replace h : (f.fdivB? n >>=
          fun x => Except.ok (Value.simplify (Value.Frac x))) =
            Except.ok w := h
        exact nvinv_of_bindF
          (fun g hg => sout_dh (fdivB_sout (vh_fwf hu) hv hg)) h
      | Frac r =>
        replace h : (f.fdiv? r >>=
          fun x => Except.ok (Value.simplify (Value.Frac x))) =
            Except.ok w := h
        exact nvinv_of_bindF
          (fun g hg => sout_dh (fdiv_sout (vh_fwf hu) (vh_fwf hv) hg)) h

/-- Witness for C7: adding the reachable value `1/2` to itself yields the
collapsed integer `1`, which satisfies the invariant. -/
theorem claim_C7_witness : NvInv (Value.Number ⟨true, [1]⟩) :=
  claim_C7.2.2.1 (Value.Frac ⟨⟨true, [1]⟩, ⟨true, [2]⟩⟩)
    (Value.Frac ⟨⟨true, [1]⟩, ⟨true, [2]⟩⟩) (Value.Number ⟨true, [1]⟩)
    (by decide) (by decide) (by rfl)

theorem divCore_exact_general {a b : BigNum} (ha : a.wfd) (hb : b.wfB)
    (hbz : b.isZero = false) (hdvd : valNat b.num ∣ valNat a.num) :
    (a.divCore b).toZ * b.toZ = a.toZ := by
  obtain ⟨hqv, hqwf, hqs⟩ := divCore_ok ha hb hbz
  have hmul : valNat a.num / valNat b.num * valNat b.num = valNat a.num :=
    Nat.div_mul_cancel hdvd
  have hc : ((valNat a.num / valNat b.num : Nat) : ℤ) * (valNat b.num : ℤ) =
      (valNat a.num : ℤ) := by exact_mod_cast hmul
  by_cases hq0 : valNat a.num / valNat b.num = 0
  · have ha0 : valNat a.num = 0 := by rw [hq0, Nat.zero_mul] at hmul; omega
    have hqz : (a.divCore b).toZ = 0 := by
      rw [← Int.natAbs_eq_zero, natAbs_toZ, hqv, hq0]
    have haz : a.toZ = 0 := by rw [← Int.natAbs_eq_zero, natAbs_toZ, ha0]
    rw [hqz, haz, zero_mul]
  · by_cases heq : a.sign = b.sign
    · have hsq : (a.divCore b).sign = true := hqs.2 (Or.inl heq)
      rw [toZ_sign_true hsq, hqv]
      rcases hsb : b.sign with _ | _
      · have hsa : a.sign = false := by rw [heq, hsb]
        rw [toZ_sign_false hsb, toZ_sign_false hsa]
        linarith [hc]
      · have hsa : a.sign = true := by rw [heq, hsb]
        rw [toZ_sign_true hsb, toZ_sign_true hsa]
        linarith [hc]
    · have hsq : (a.divCore b).sign = false := by
        rcases hsp : (a.divCore b).sign with _ | _
        · rfl
        · exfalso
          rcases hqs.1 hsp with h1 | h1
          · exact heq h1
          · exact hq0 h1
      rw [toZ_sign_false hsq, hqv]
      rcases hsb : b.sign with _ | _
      · have hsa : a.sign = true := by
          revert heq; rw [hsb]; cases a.sign <;> simp
        rw [toZ_sign_false hsb, toZ_sign_true hsa]
        linarith [hc]
      · have hsa : a.sign = false := by
          revert heq; rw [hsb]; cases a.sign <;> simp
        rw [toZ_sign_true hsb, toZ_sign_false hsa]
        linarith [hc]

/-- C6: for well-formed BigInts `n`, `d` with `d` nonzero, `Frac::new`
returns a fraction with value `n/d` (as a cross-multiplication identity),
strictly positive denominator, and coprime numerator and denominator; a
zero numerator normalizes to `0/1`. -/
theorem claim_C6 {n d : BigNum} (hn : n.wfB) (hd : d.wfB)
    (hdz : d.isZero = false) :
    ∃ f, Frac.new? n d = Except.ok f ∧
      f.numerator.toZ * d.toZ = n.toZ * f.denominator.toZ ∧
      0 < f.denominator.toZ ∧
      Nat.gcd f.numerator.toZ.natAbs f.denominator.toZ.natAbs = 1 ∧
      (n.toZ = 0 → f.numerator.toZ = 0 ∧ f.denominator.toZ = 1) := by
  obtain ⟨f, heq, hinv, hcross, hdval, hnval, hzero⟩ :=
    new_ok (wfB_wfd hn) hd hdz
  have hds : f.denominator.sign = true := hinv.2.2.1
  have hdz' : f.denominator.isZero = false := hinv.2.2.2.1
  refine ⟨f, heq, hcross, ?_, ?_, ?_⟩
  · rw [toZ_sign_true hds]
    have hne : valNat f.denominator.num ≠ 0 := by
      intro h0
      rw [isZero_iff_valNat.2 h0] at hdz'
      exact absurd hdz' (by simp)
    exact_mod_cast Nat.pos_of_ne_zero hne
  · rw [natAbs_toZ, natAbs_toZ]
    exact hinv.2.2.2.2
  · intro h0
    have hv0 : valNat n.num = 0 := by
      have h1 := natAbs_toZ n
      rw [h0] at h1
      simpa using h1.symm
    constructor
    · have hvn : valNat f.numerator.num = 0 := by
        rw [hnval, hv0, Nat.zero_div]
      have h1 := natAbs_toZ f.numerator
      rw [hvn] at h1
      exact Int.natAbs_eq_zero.1 h1
    · rw [hzero hv0]
      decide

/-- Witness for C6 at `n = -4`, `d = 6`: the constructor yields `-2/3`. -/
theorem claim_C6_witness :
    ∃ f, Frac.new? ⟨false, [4]⟩ ⟨true, [6]⟩ = Except.ok f ∧
      f.numerator.toZ * (⟨true, [6]⟩ : BigNum).toZ =
        (⟨false, [4]⟩ : BigNum).toZ * f.denominator.toZ ∧
      0 < f.denominator.toZ ∧
      Nat.gcd f.numerator.toZ.natAbs f.denominator.toZ.natAbs = 1 ∧
      ((⟨false, [4]⟩ : BigNum).toZ = 0 →
        f.numerator.toZ = 0 ∧ f.denominator.toZ = 1) :=
  claim_C6 (by decide) (by decide) (by decide)

/-- C1: dividing two well-formed integer values with a nonzero divisor
yields the `Number` variant exactly when the divisor divides the dividend
(the quotient then being exact), and otherwise a reduced `Frac` with the
value of the quotient; in particular the full pipeline evaluates `5/2` to
the string `5/2`. -/
theorem claim_C1 :
    (∀ a b : BigNum, a.wfB → b.wfB → b.isZero = false →
      (b.toZ ∣ a.toZ →
        ∃ q, Value.vdiv? (Value.Number a) (Value.Number b) =
            Except.ok (Value.Number q) ∧ q.toZ * b.toZ = a.toZ) ∧
      (¬b.toZ ∣ a.toZ →
        ∃ f, Value.vdiv? (Value.Number a) (Value.Number b) =
            Except.ok (Value.Frac f) ∧
          f.numerator.toZ * b.toZ = a.toZ * f.denominator.toZ ∧
          1 < f.denominator.toZ ∧
          Nat.gcd f.numerator.toZ.natAbs f.denominator.toZ.natAbs = 1)) ∧
    evalToString "5/2" = Out.ok "5/2" := by
  constructor
  · intro a b ha hb hbz
    have haw : a.wfd := wfB_wfd ha
    have hbpos : 0 < valNat b.num := by
      rcases Nat.eq_zero_or_pos (valNat b.num) with h0 | h0
      · exact absurd (isZero_iff_valNat.2 h0) (by simp [hbz])
      · exact h0
    have hvd0 : Value.vdiv? (Value.Number a) (Value.Number b) =
        (a.rem? b >>= fun m =>
          if m = BigNum.zero then
            a.div? b >>= fun q => Except.ok (Value.simplify (Value.Number q))
          else
            Frac.new? a b >>= fun x =>
              Except.ok (Value.simplify (Value.Frac x))) := rfl
    have hvd : Value.vdiv? (Value.Number a) (Value.Number b) =
        (if a.remCore b = BigNum.zero then
          a.div? b >>= fun q => Except.ok (Value.simplify (Value.Number q))
        else
          Frac.new? a b >>= fun x =>
            Except.ok (Value.simplify (Value.Frac x))) := by
      rw [hvd0, rem_eq hbz, ok_bind]
    obtain ⟨hmv, hms, hmwf⟩ := remCore_ok haw hb hbz
    constructor
    · intro hdvd
      have hdvdN : valNat b.num ∣ valNat a.num := (toZ_dvd_iff a b).1 hdvd
      by_cases hz : a.remCore b = BigNum.zero
      · rw [hvd, if_pos hz]
        refine ⟨a.divCore b, ?_, divCore_exact_general haw hb hbz hdvdN⟩
        rw [div_eq hbz]
        rfl
      · rw [hvd, if_neg hz]
        obtain ⟨f, heq, hinv, hcross, hdval, hnval, hzero⟩ :=
          new_ok haw hb hbz
        have hG : Nat.gcd (valNat a.num) (valNat b.num) = valNat b.num :=
          Nat.gcd_eq_right hdvdN
        have hd1 : valNat f.denominator.num = 1 := by
          rw [hdval, hG, Nat.div_self hbpos]
        have hdstruct : f.denominator = ⟨true, [1]⟩ :=
          wf_val_one hinv.2.1 hinv.2.2.1 hd1
        have hbig : f.isBignum = true := by
          unfold Frac.isBignum
          rw [hdstruct]
          simp
        refine ⟨f.numerator, ?_, ?_⟩
        · rw [heq]
          show Except.ok (Value.simplify (Value.Frac f)) =
            Except.ok (Value.Number f.numerator)
          rw [simplify_frac_eq, if_pos hbig]
        · have hdz1 : f.denominator.toZ = 1 := by rw [hdstruct]; decide
          rw [hdz1, mul_one] at hcross
          exact hcross
    · intro hndvd
      have hndvdN : ¬valNat b.num ∣ valNat a.num := fun hx =>
        hndvd ((toZ_dvd_iff a b).2 hx)
      have hz : ¬a.remCore b = BigNum.zero := by
        intro hx
        apply hndvdN
        have h0 : valNat (a.remCore b).num = 0 := by rw [hx]; rfl
        rw [hmv] at h0
        exact Nat.dvd_iff_mod_eq_zero.2 h0
      rw [hvd, if_neg hz]
      obtain ⟨f, heq, hinv, hcross, hdval, hnval, hzero⟩ := new_ok haw hb hbz
      set G := Nat.gcd (valNat a.num) (valNat b.num) with hG
      have hGpos : 0 < G := Nat.gcd_pos_of_pos_right _ hbpos
      have hGb : G ∣ valNat b.num := Nat.gcd_dvd_right _ _
      have hGa : G ∣ valNat a.num := Nat.gcd_dvd_left _ _
      have hdne1 : valNat f.denominator.num ≠ 1 := by
        intro h1
        apply hndvdN
        rw [hdval] at h1
        have hbG : valNat b.num / G * G = valNat b.num :=
          Nat.div_mul_cancel hGb
        rw [h1, one_mul] at hbG
        rw [← hbG]
        exact hGa
      have hdpos : 0 < valNat f.denominator.num := by
        rcases Nat.eq_zero_or_pos (valNat f.denominator.num) with h0 | h0
        · have hzx : f.denominator.isZero = false := hinv.2.2.2.1
          rw [isZero_iff_valNat.2 h0] at hzx
          exact absurd hzx (by simp)
        · exact h0
      have hnum0 : f.numerator.isZero = false := by
        rcases hx : f.numerator.isZero with _ | _
        · rfl
        · exfalso
          apply hndvd
          have hv0 : valNat f.numerator.num = 0 := isZero_iff_valNat.1 hx
          rw [hnval] at hv0
          have ha0 : valNat a.num = 0 := by
            by_contra hne
            have hle : G ≤ valNat a.num :=
              Nat.le_of_dvd (Nat.pos_of_ne_zero hne) hGa
            have hlt : valNat a.num < G := by
              rcases Nat.lt_or_ge (valNat a.num) G with h | h
              · exact h
              · exfalso
                have := Nat.div_le_div_right (c := G) h
                rw [Nat.div_self hGpos, hv0] at this
                omega
            omega
          have haz : a.toZ = 0 := by
            rw [← Int.natAbs_eq_zero, natAbs_toZ, ha0]
          rw [haz]
          exact dvd_zero _
      have hbig : f.isBignum = false := by
        apply (isBignum_false_iff f).2
        refine ⟨?_, hnum0⟩
        intro hx
        rw [hx] at hdne1
        exact hdne1 rfl
      refine ⟨f, ?_, hcross, ?_, ?_⟩
      · rw [heq]
        show Except.ok (Value.simplify (Value.Frac f)) =
          Except.ok (Value.Frac f)
        rw [simplify_frac_eq, if_neg (by simp [hbig])]
      · rw [toZ_sign_true hinv.2.2.1]
        have : 1 < valNat f.denominator.num := by omega
        exact_mod_cast this
      · rw [natAbs_toZ, natAbs_toZ]
        exact hinv.2.2.2.2
  · rfl

/-- Witness for C1 at `a = 5`, `b = 2`: `2` does not divide `5`, so the
division promotes to the reduced fraction `5/2`. -/
theorem claim_C1_witness :
    ∃ f, Value.vdiv? (Value.Number ⟨true, [5]⟩) (Value.Number ⟨true, [2]⟩) =
        Except.ok (Value.Frac f) ∧
      f.numerator.toZ * (⟨true, [2]⟩ : BigNum).toZ =
        (⟨true, [5]⟩ : BigNum).toZ * f.denominator.toZ ∧
      1 < f.denominator.toZ ∧
      Nat.gcd f.numerator.toZ.natAbs f.denominator.toZ.natAbs = 1 :=
  (claim_C1.1 ⟨true, [5]⟩ ⟨true, [2]⟩ (by decide) (by decide) (by decide)).2
    (by
      rintro ⟨c, hc⟩
      have hc' : (5 : ℤ) = 2 * c := hc
      omega)

/-- C2 (amended): construction via `from_vec` fully canonicalizes, and the
arithmetic producers keep digit vectors free of leading zeros; but negation
does not re-canonicalize the sign of zero, remainder can return a negative
zero, and parsing stores digits verbatim. -/
theorem claim_C2 :
    (∀ (l : List Nat) (s : Bool), (BigNum.fromVec l s).invariant) ∧
    (∀ a b : BigNum, a.wfd → b.wfd →
      (a.add b).wfB ∧ (a.sub b).wfB ∧ (a.mul b).wfB) ∧
    (∀ a b : BigNum, a.wfd → b.wfB → b.isZero = false →
      (a.divCore b).wfB ∧ (a.remCore b).wfB) ∧
    BigNum.zero.negate = ⟨false, [0]⟩ ∧
    BigNum.rem? ⟨false, [4]⟩ ⟨true, [2]⟩ = Except.ok ⟨false, [0]⟩ ∧
    BigNum.fromStr "007".toList = Except.ok ⟨true, [0, 0, 7]⟩ := by
  refine ⟨fromVec_invariant, ?_, ?_, rfl, rfl, rfl⟩
  · intro a b ha hb
    exact ⟨add_wfB ha hb, sub_wfB ha hb, mul_wfB ha.2 (dval_dvalTen hb.2)⟩
  · intro a b ha hb hbz
    exact ⟨(divCore_ok ha hb hbz).2.1, (remCore_ok ha hb hbz).2.2⟩

/-- Witness for C2's producer clause at `3 + (-4)`. -/
theorem claim_C2_witness :
    (BigNum.add ⟨true, [3]⟩ ⟨false, [4]⟩).wfB ∧
    (BigNum.sub ⟨true, [3]⟩ ⟨false, [4]⟩).wfB ∧
    (BigNum.mul ⟨true, [3]⟩ ⟨false, [4]⟩).wfB :=
  claim_C2.2.1 ⟨true, [3]⟩ ⟨false, [4]⟩ (by decide) (by decide)

/-- Counterexample to C2 as stated: negating canonical zero yields a
negative zero, which violates the BigInt invariant. -/
theorem claim_C2_counterexample :
    BigNum.zero.invariant ∧ ¬(BigNum.zero.negate).invariant := by decide

/-- C3 (amended): `a - a` always has magnitude zero, but it is the
negative zero `⟨!a.sign, [0]⟩`, not the canonical `zero`; its sign is the
flip of the operand's sign, not a fixed non-negative sign. -/
theorem claim_C3 : ∀ a : BigNum, a.num ≠ [] →
    (a.sub a).isZero = true ∧ a.sub a = ⟨!a.sign, [0]⟩ := by
  intro a hne
  have hlen : 1 ≤ a.num.length := List.length_pos.2 hne
  have hpad : padTo (max a.num.length a.num.length) a.num = a.num := by
    rw [Nat.max_self]
    unfold padTo
    rw [Nat.sub_self, List.replicate_zero, List.nil_append]
  have hstep : a.sub a = ⟨!a.sign, [0]⟩ := by
    unfold BigNum.sub BigNum.add
    simp only []
    have h1 : ¬(a.sign = a.negate.sign) := by
      show ¬(a.sign = !a.sign)
      cases a.sign <;> simp
    rw [if_neg h1]
    have h2 : listLt (padTo (max a.num.length a.negate.num.length) a.negate.num)
        (padTo (max a.num.length a.negate.num.length) a.num) = false := by
      show listLt (padTo (max a.num.length a.num.length) a.num)
        (padTo (max a.num.length a.num.length) a.num) = false
      exact listLt_irrefl _
    rw [if_neg (by simp [h2])]
    show (⟨!a.sign, trim (subAux (padTo (max a.num.length a.num.length) a.num)
      (padTo (max a.num.length a.num.length) a.num)).2⟩ : BigNum) =
        ⟨!a.sign, [0]⟩
    rw [hpad, subAux_self]
    show (⟨!a.sign, trim (List.replicate a.num.length 0)⟩ : BigNum) =
      ⟨!a.sign, [0]⟩
    rw [trim_replicate_zero hlen]
  refine ⟨?_, hstep⟩
  rw [hstep]
  rfl

/-- Witness for C3 at `a = 3`. -/
theorem claim_C3_witness :
    (BigNum.sub ⟨true, [3]⟩ ⟨true, [3]⟩).isZero = true ∧
    BigNum.sub ⟨true, [3]⟩ ⟨true, [3]⟩ = ⟨false, [0]⟩ :=
  claim_C3 ⟨true, [3]⟩ (by decide)

/-- Counterexample to C3 as stated: `3 - 3` is the negative zero
`⟨false, [0]⟩`, not the canonical zero `⟨true, [0]⟩`. -/
theorem claim_C3_counterexample :
    BigNum.sub ⟨true, [3]⟩ ⟨true, [3]⟩ = ⟨false, [0]⟩ ∧
    ¬BigNum.sub ⟨true, [3]⟩ ⟨true, [3]⟩ = BigNum.zero := by decide

/-- C4: evaluating a division node evaluates the right operand first; if
its value is zero, evaluation stops with the `Division by Zero` parse-level
error no matter what the left operand is (it is never evaluated); in
particular the pipeline maps `1/0` to that error. -/
theorem claim_C4 :
    (∀ (l r : Expr) (v : Value), r.eval = Out.ok v → v.isZero = true →
      (Expr.BinExpr Operator.Divide l r).eval =
        Out.err ⟨"Division by Zero", "Parse"⟩) ∧
    evalToString "1/0" = Out.err ⟨"Division by Zero", "Parse"⟩ := by
  constructor
  · intro l r v hr hz
    show (match r.eval with
      | .ok rv =>
        if rv.isZero then Out.err ⟨"Division by Zero", "Parse"⟩
        else
          match l.eval with
          | .ok lv => liftP (lv.vdiv? rv)
          | .err er => Out.err er
          | .panic m => Out.panic m
      | .err er => Out.err er
      | .panic m => Out.panic m) = Out.err ⟨"Division by Zero", "Parse"⟩
    rw [hr]
    show (if v.isZero = true then Out.err ⟨"Division by Zero", "Parse"⟩
      else
        match l.eval with
        | .ok lv => liftP (lv.vdiv? v)
        | .err er => Out.err er
        | .panic m => Out.panic m) = Out.err ⟨"Division by Zero", "Parse"⟩
    rw [if_pos hz]
  · rfl

/-- Witness for C4 at the concrete tree `1 / 0`. -/
theorem claim_C4_witness :
    (Expr.BinExpr Operator.Divide (Expr.ValExrp (Value.Number ⟨true, [1]⟩))
      (Expr.ValExrp (Value.Number ⟨true, [0]⟩))).eval =
      Out.err ⟨"Division by Zero", "Parse"⟩ :=
  claim_C4.1 (Expr.ValExrp (Value.Number ⟨true, [1]⟩))
    (Expr.ValExrp (Value.Number ⟨true, [0]⟩)) (Value.Number ⟨true, [0]⟩)
    rfl rfl

/-- C5: the full pipeline evaluates `(1+2)*3` to the string `9` —
parentheses group the sum before the product. -/
theorem claim_C5 : evalToString "(1+2)*3" = Out.ok "9" := rfl

/-- C10 is refuted: the pipeline can panic.  For the input `0/(1/2)` the
swapped `(Number, Frac)` division arm computes `frac / num` instead of
`num / frac`, inverting the promoted fraction `0/1`, and `Frac::new` hits
its zero-denominator panic instead of returning an error value. -/
theorem claim_C10 :
    evalToString "0/(1/2)" = Out.panic "Denominator cannot be zero" := rfl

/-- C8 (amended): parse-from-text accepts an optional leading sign
followed by one or more decimal digits (wrong characters are reported by
the first offender, a missing digit run by a format error) and stores the
digits exactly as written — so every digit is below ten and the vector is
nonempty, but leading zeros are not stripped and zero is not
re-canonicalized. -/
theorem claim_C8 :
    (∀ s : List Char, (∀ c ∈ (stripSign s).2, c.isDigit = true) →
      (stripSign s).2 ≠ [] →
      BigNum.fromStr s =
        Except.ok ⟨(stripSign s).1, (stripSign s).2.map digitVal⟩) ∧
    (∀ s : List Char, (stripSign s).2 = [] →
      BigNum.fromStr s = Except.error "Invalid number format") ∧
    (∀ (s pre : List Char) (c : Char) (suf : List Char),
      (stripSign s).2 = pre ++ c :: suf → (∀ x ∈ pre, x.isDigit = true) →
      c.isDigit = false →
      BigNum.fromStr s = Except.error ("Invalid character: " ++ toString c)) ∧
    (∀ (s : List Char) (b : BigNum), BigNum.fromStr s = Except.ok b →
      b.num ≠ [] ∧ dval b.num) :=
  ⟨fun _ h1 h2 => fromStr_ok_digits h1 h2,
   fun _ h => fromStr_err_empty h,
   fun _ _ _ _ h1 h2 h3 => fromStr_err_char h1 h2 h3,
   fun _ _ h => fromStr_wfd h⟩

/-- Witness for C8 at the input `-42`. -/
theorem claim_C8_witness :
    BigNum.fromStr "-42".toList =
      Except.ok ⟨(stripSign "-42".toList).1,
        (stripSign "-42".toList).2.map digitVal⟩ :=
  claim_C8.1 "-42".toList (by decide) (by decide)

/-- Counterexample to C8 as stated: `007` parses successfully but keeps
its leading zeros, violating the BigInt invariant. -/
theorem claim_C8_counterexample :
    BigNum.fromStr "007".toList = Except.ok ⟨true, [0, 0, 7]⟩ ∧
    ¬(⟨true, [0, 0, 7]⟩ : BigNum).invariant := ⟨rfl, by decide⟩

theorem stripSign_nosign {c : Char} (h1 : ¬c = '-') (h2 : ¬c = '+')
    (r : List Char) : stripSign (c :: r) = (true, c :: r) := by
  unfold stripSign
  split
  · next heq =>
      injection heq with h hr
      exact absurd h h1
  · next heq =>
      injection heq with h hr
      exact absurd h h2
  · rfl

theorem lex_single {c : Char} (h1 : ¬c = ' ') (h2 : ¬c = '+')
    (h3 : ¬c = '*') (h4 : ¬c = '/') (h5 : ¬c = ')') (h6 : ¬c = '(')
    (h7 : ¬c = '-') (h8 : c.isDigit = false) :
    lex [c] = Out.err ⟨"Unrecognized character " ++ toString c, "Lex"⟩ := by
  show lexLoop 2 [c] [] = _
  have e : lexLoop 2 [c] [] =
      (if c = ' ' then lexLoop 1 [] []
      else if c = '+' then lexLoop 1 [] [Token.Plus]
      else if c = '*' then lexLoop 1 [] [Token.Star]
      else if c = '/' then lexLoop 1 [] [Token.Slash]
      else if c = ')' then lexLoop 1 [] [Token.LeftParen]
      else if c = '(' then lexLoop 1 [] [Token.RightParen]
      else if c = '-' then lexLoop 1 [] [Token.Dash]
      else if c.isDigit then
        (match Value.fromStr? [c] with
        | some v => lexLoop 1 [] [Token.Number v]
        | none => Out.panic "unwrap of number parse")
      else Out.err ⟨"Unrecognized character " ++ toString c, "Lex"⟩) := rfl
  rw [e, if_neg h1, if_neg h2, if_neg h3, if_neg h4, if_neg h5, if_neg h6,
    if_neg h7, if_neg (by simp [h8])]

theorem lex_digit {c : Char} (h8 : c.isDigit = true) :
    lex [c] =
      Out.ok [Token.Number (Value.Number ⟨true, [digitVal c]⟩), Token.End] := by
  have hnd : ∀ x : Char, x.isDigit = false → ¬c = x := by
    intro x hx h
    rw [h, hx] at h8
    exact absurd h8 (by simp)
  have h1 : ¬c = ' ' := hnd ' ' (by decide)
  have h2 : ¬c = '+' := hnd '+' (by decide)
  have h3 : ¬c = '*' := hnd '*' (by decide)
  have h4 : ¬c = '/' := hnd '/' (by decide)
  have h5 : ¬c = ')' := hnd ')' (by decide)
  have h6 : ¬c = '(' := hnd '(' (by decide)
  have h7 : ¬c = '-' := hnd '-' (by decide)
  have hss : stripSign [c] = (true, [c]) := stripSign_nosign h7 h2 []
  have hall : ∀ x ∈ (stripSign [c]).2, x.isDigit = true := by
    rw [hss]
    intro x hx
    rw [List.mem_singleton] at hx
    rw [hx]
    exact h8
  have hne : (stripSign [c]).2 ≠ [] := by rw [hss]; simp
  have hok := fromStr_ok_digits hall hne
  rw [hss] at hok
  have hv : Value.fromStr? [c] = some (Value.Number ⟨true, [digitVal c]⟩) := by
    unfold Value.fromStr?
    rw [hok]
    rfl
  show lexLoop 2 [c] [] = _
  have e : lexLoop 2 [c] [] =
      (if c = ' ' then lexLoop 1 [] []
      else if c = '+' then lexLoop 1 [] [Token.Plus]
      else if c = '*' then lexLoop 1 [] [Token.Star]
      else if c = '/' then lexLoop 1 [] [Token.Slash]
      else if c = ')' then lexLoop 1 [] [Token.LeftParen]
      else if c = '(' then lexLoop 1 [] [Token.RightParen]
      else if c = '-' then lexLoop 1 [] [Token.Dash]
      else if c.isDigit then
        (match Value.fromStr? [c] with
        | some v => lexLoop 1 [] [Token.Number v]
        | none => Out.panic "unwrap of number parse")
      else Out.err ⟨"Unrecognized character " ++ toString c, "Lex"⟩) := rfl
  rw [e, if_neg h1, if_neg h2, if_neg h3, if_neg h4, if_neg h5, if_neg h6,
    if_neg h7, if_pos h8, hv]
  rfl

/-- C9 (amended): the lexer skips exactly the space character (not all
whitespace — see the counterexample), maps the six operator characters to
single-character tokens (`'('` to the token the source names `RightParen`
and `')'` to `LeftParen`), turns a maximal ASCII-digit run into one
`Number` token, and fails on any other character with a `Lex` error naming
it. -/
theorem claim_C9 :
    lex [' '] = Out.ok [Token.End] ∧
    lex ['+'] = Out.ok [Token.Plus, Token.End] ∧
    lex ['-'] = Out.ok [Token.Dash, Token.End] ∧
    lex ['*'] = Out.ok [Token.Star, Token.End] ∧
    lex ['/'] = Out.ok [Token.Slash, Token.End] ∧
    lex ['('] = Out.ok [Token.RightParen, Token.End] ∧
    lex [')'] = Out.ok [Token.LeftParen, Token.End] ∧
    (∀ c : Char, c.isDigit = true →
      lex [c] =
        Out.ok [Token.Number (Value.Number ⟨true, [digitVal c]⟩), Token.End]) ∧
    (∀ c : Char, ¬c = ' ' → ¬c = '+' → ¬c = '*' → ¬c = '/' → ¬c = ')' →
      ¬c = '(' → ¬c = '-' → c.isDigit = false →
      lex [c] = Out.err ⟨"Unrecognized character " ++ toString c, "Lex"⟩) ∧
    lex "12+3".toList = Out.ok [Token.Number (Value.Number ⟨true, [1, 2]⟩),
      Token.Plus, Token.Number (Value.Number ⟨true, [3]⟩), Token.End] := by
  refine ⟨rfl, rfl, rfl, rfl, rfl, rfl, rfl, ?_, ?_, rfl⟩
  · intro c h
    exact lex_digit h
  · intro c h1 h2 h3 h4 h5 h6 h7 h8
    exact lex_single h1 h2 h3 h4 h5 h6 h7 h8

/-- Witness for C9's digit clause at `'7'`. -/
theorem claim_C9_witness :
    lex ['7'] =
      Out.ok [Token.Number (Value.Number ⟨true, [digitVal '7']⟩), Token.End] :=
  claim_C9.2.2.2.2.2.2.2.1 '7' (by decide)

/-- Counterexample to C9 as stated: a tab is whitespace but the lexer
rejects it instead of skipping it. -/
theorem claim_C9_counterexample :
    ('\t').isWhitespace = true ∧
    lex ['\t'] = Out.err ⟨"Unrecognized character \t", "Lex"⟩ :=
  ⟨by decide, rfl⟩
